import Mathlib

/-!
# Verification of the surg-case-scribe standardization pipeline

Shallow embedding of the CSV standardization pipeline implemented in the
upload route of the repository (the file containing `parseCSV`,
`mockColumnMapping`, `generateColumnMapping`, `standardizeData`,
`handleStandardizeMode`).

Rows are modelled as association lists in property-creation order,
mirroring JavaScript object semantics: assignment to an existing key
updates the value in place (keeping its position), assignment to a fresh
key appends it, and property lookup returns the unique binding.
`Object.keys` and `Object.entries` do NOT simply follow creation order:
per ECMAScript `OrdinaryOwnPropertyKeys`, own string keys that are array
indices (canonical decimal strings below `2^32 - 1`) enumerate first, in
ascending numeric order, before the remaining string keys in creation
order; `keys` and `jsEntries` implement exactly that.
-/

namespace SCS

/-- A parsed row: a JavaScript object from string keys to string values,
kept in insertion order. -/
abbrev Row := List (String × String)

/-- JavaScript object assignment `r[k] = v`: overwrite in place if the key
exists, append otherwise. -/
def setKey : Row → String → String → Row
  | [], k, v => [(k, v)]
  | (k1, v1) :: rest, k, v =>
    if k1 = k then (k1, v) :: rest
    else (k1, v1) :: setKey rest k v

/-- JavaScript property lookup `r[k]` (first binding wins; rows built by
`setKey` have unique keys). -/
def getKey : Row → String → Option String
  | [], _ => none
  | (k1, v1) :: rest, k => if k = k1 then some v1 else getKey rest k

/-- `Object.prototype.hasOwnProperty`. -/
def hasKey (r : Row) (k : String) : Bool :=
  (getKey r k).isSome

/-- The creation (insertion) order of a row's property keys. -/
def insKeys (r : Row) : List String :=
  r.map Prod.fst

/-- Value of a decimal digit string. -/
def digitsVal (l : List Char) : Nat :=
  l.foldl (fun n c => n * 10 + (c.toNat - 48)) 0

/-- ECMAScript array-index property name: a canonical decimal string
(digits only, no leading zero except `"0"` itself) whose numeric value is
below `2^32 - 1`. -/
def isArrayIndex (s : String) : Bool :=
  match s.data with
  | [] => false
  | c :: rest =>
    (c :: rest).all Char.isDigit &&
    (if c = '0' then rest.isEmpty else true) &&
    digitsVal (c :: rest) < 4294967295

/-- Insert into a list sorted by ascending numeric value. -/
def insertAsc (s : String) : List String → List String
  | [] => [s]
  | t :: rest =>
    if digitsVal s.data ≤ digitsVal t.data then s :: t :: rest
    else t :: insertAsc s rest

/-- Sort by ascending numeric value (insertion sort). -/
def sortAsc : List String → List String
  | [] => []
  | s :: rest => insertAsc s (sortAsc rest)

/-- ECMAScript `OrdinaryOwnPropertyKeys` order for string-keyed
properties: array-index names first in ascending numeric order, then the
remaining names in creation order. -/
def enumOrder (names : List String) : List String :=
  sortAsc (names.filter (fun s => isArrayIndex s)) ++
    names.filter (fun s => !isArrayIndex s)

/-- `Object.keys`: the row's property names in ECMAScript enumeration
order. -/
def keys (r : Row) : List String :=
  enumOrder (insKeys r)

/-- `Object.entries`: the row's entries in ECMAScript enumeration
order. -/
def jsEntries (r : Row) : Row :=
  (keys r).filterMap (fun k => (getKey r k).map (fun v => (k, v)))

/-- The whitespace characters stripped by JavaScript `String.prototype.trim`
that can occur in the byte-level inputs this pipeline handles. -/
def isWS (c : Char) : Bool :=
  c = ' ' || c = '\t' || c = '\n' || c = '\r' || c = '\x0b' || c = '\x0c'

/-- Remove trailing characters satisfying `p`. -/
def dropTrail (p : Char → Bool) : List Char → List Char
  | [] => []
  | c :: rest =>
    match dropTrail p rest with
    | [] => if p c then [] else [c]
    | r => c :: r

/-- JavaScript `String.prototype.trim` on a character list. -/
def trimWS (l : List Char) : List Char :=
  dropTrail isWS (l.dropWhile isWS)

/-- JavaScript `String.prototype.trim`. -/
def trimStr (s : String) : String :=
  String.mk (trimWS s.data)

/-- JavaScript `String.prototype.split(sep)` for a single-character
separator: always returns at least one (possibly empty) piece. -/
def splitOnChar (sep : Char) : List Char → List (List Char)
  | [] => [[]]
  | c :: rest =>
    if c = sep then [] :: splitOnChar sep rest
    else
      match splitOnChar sep rest with
      | [] => [[c]]
      | f :: fs => (c :: f) :: fs

/-- Join pieces with a single-character separator (inverse of
`splitOnChar` on separator-free pieces). -/
def joinSep (sep : Char) : List (List Char) → List Char
  | [] => []
  | [c] => c
  | c :: cs => c ++ sep :: joinSep sep cs

/-- `text.split(/\r?\n/)`: split on newline, then drop one carriage return
at the end of every piece that was followed by a newline (all but the
last). -/
def stripCRs : List (List Char) → List (List Char)
  | [] => []
  | [l] => [l]
  | l :: rest =>
    (match l.getLast? with
     | some c => if c = '\r' then l.dropLast else l
     | none => l) :: stripCRs rest

/-! ## Tokenizer (`parseCSV`)

The quote-aware character loop of the source keeps `fieldValue`,
`currentField` and `inQuotes` mutable variables and writes
`row[headers[currentField]] = fieldValue.trim()` at every unquoted comma
and once at end of line.  `parseRowLoop` is that loop verbatim;
`charFieldsAux` is the same loop with the row construction stripped away,
used only in proofs. -/

/-- The field buffers produced by the quote-aware loop: a `"` toggles
`inQuotes` and is never emitted, an unquoted `,` ends the field, any other
character is appended. -/
def charFieldsAux : List Char → List Char → Bool → List (List Char)
  | [], fv, _ => [fv]
  | c :: rest, fv, inQ =>
    if c = '"' then charFieldsAux rest fv (!inQ)
    else if c = ',' ∧ inQ = false then fv :: charFieldsAux rest [] inQ
    else charFieldsAux rest (fv ++ [c]) inQ

/-- All quote-aware field buffers of a line. -/
def charFields (line : List Char) : List (List Char) :=
  charFieldsAux line [] false

/-- The character-by-character loop of `parseCSV`, building the row object.
A field is stored only while `currentField < headers.length`. -/
def parseRowLoop (headers : List String) :
    List Char → List Char → Bool → Nat → Row → Row
  | [], fv, _, cur, row =>
    if cur < headers.length then
      setKey row (headers.getD cur "") (String.mk (trimWS fv))
    else row
  | c :: rest, fv, inQ, cur, row =>
    if c = '"' then parseRowLoop headers rest fv (!inQ) cur row
    else if c = ',' ∧ inQ = false then
      parseRowLoop headers rest [] inQ (cur + 1)
        (if cur < headers.length then
          setKey row (headers.getD cur "") (String.mk (trimWS fv))
        else row)
    else parseRowLoop headers rest (fv ++ [c]) inQ cur row

/-- Store a list of field buffers into a row starting at field index `cur`
(proof-side restatement of what `parseRowLoop` does to the row). -/
def applyFields (headers : List String) :
    List (List Char) → Nat → Row → Row
  | [], _, row => row
  | f :: fs, cur, row =>
    applyFields headers fs (cur + 1)
      (if cur < headers.length then
        setKey row (headers.getD cur "") (String.mk (trimWS f))
      else row)

/-- The value the naive fallback writes for header index `i`:
`index < values.length ? values[index].trim() : ''`. -/
def padVal (values : List (List Char)) (i : Nat) : String :=
  if i < values.length then String.mk (trimWS (values.getD i [])) else ""

/-- The naive fallback of `parseCSV`:
`headers.forEach((header, index) => row[header] = ...)`, mutating the row
the quote-aware loop produced. -/
def fillAll (values : List (List Char)) :
    List String → Nat → Row → Row
  | [], _, row => row
  | h :: hs, i, row => fillAll values hs (i + 1) (setKey row h (padVal values i))

/-- One data line of `parseCSV`: quote-aware parse, then, if fewer object
keys than headers resulted, the naive split-on-comma fallback. -/
def parseRow (headers : List String) (line : List Char) : Row :=
  let row := parseRowLoop headers line [] false 0 []
  if row.length < headers.length then
    fillAll (splitOnChar ',' line) headers 0 row
  else row

/-- `parseCSV`: split into lines (dropping blank ones), read the headers
from the first line by a simple comma split with trimming, and parse every
remaining line into a row. -/
def parseCSV (text : String) : List Row :=
  let lines := (stripCRs (splitOnChar '\n' text.data)).filter
    (fun l => !(trimWS l).isEmpty)
  match lines with
  | [] => []
  | headerLine :: dataLines =>
    let headers := (splitOnChar ',' headerLine).map (fun c => String.mk (trimWS c))
    dataLines.map (fun line => parseRow headers line)

/-! ## Heuristic Mapper (`mockColumnMapping`) -/

/-- Lowercase ASCII letter or digit: the character class `[a-z0-9]` kept by
the snake-case rewrite. -/
def isLowerAlnum (c : Char) : Bool :=
  ('a' ≤ c && c ≤ 'z') || ('0' ≤ c && c ≤ '9')

/-- `.replace(/_+/g, '_')`: collapse every run of underscores to one. -/
def collapseUnd : List Char → List Char
  | [] => []
  | c :: rest =>
    if c = '_' then '_' :: collapseUnd (rest.dropWhile (fun d => d = '_'))
    else c :: collapseUnd rest
termination_by l => l.length
decreasing_by
  · simp only [List.length_cons]
    exact Nat.lt_succ_of_le ((List.dropWhile_sublist _).length_le)
  · simp

/-- `.replace(/^_|_$/g, '')`, trailing half: the regex removes at most one
underscore at the very end. -/
def dropTrailOne : List Char → List Char
  | [] => []
  | [c] => if c = '_' then [] else [c]
  | c :: rest => c :: dropTrailOne rest

/-- `.replace(/^_|_$/g, '')`, leading half: at most one underscore at the
very start. -/
def dropLeadOne : List Char → List Char
  | [] => []
  | c :: t => if c = '_' then t else c :: t

/-- The snake-case rewrite of the source:
`header.toLowerCase().replace(/[^a-z0-9]/g, '_').replace(/_+/g, '_').replace(/^_|_$/g, '')`. -/
def snakeCode (s : String) : String :=
  String.mk (dropTrailOne (dropLeadOne (collapseUnd
    ((s.data.map Char.toLower).map (fun c => if isLowerAlnum c then c else '_')))))

/-- `sub` occurs at the head of the second list. -/
def leadsList : List Char → List Char → Bool
  | [], _ => true
  | _ :: _, [] => false
  | a :: as, b :: bs => a = b && leadsList as bs

/-- JavaScript `String.prototype.includes`: `sub` occurs somewhere in the
list. -/
def containsList (sub : List Char) : List Char → Bool
  | [] => leadsList sub []
  | l@(_ :: t) => leadsList sub l || containsList sub t

/-- The heuristic classifier of the source, `mockColumnMapping`'s
per-header rule chain. -/
def mockHeaderName (h : String) : String :=
  if containsList "date".data (h.data.map Char.toLower) ||
      containsList "dt".data (h.data.map Char.toLower) then
    "procedure_date"
  else if containsList "proc".data (h.data.map Char.toLower) ||
      containsList "surg".data (h.data.map Char.toLower) ||
      containsList "operation".data (h.data.map Char.toLower) then
    "procedure_type"
  else if containsList "patient".data (h.data.map Char.toLower) ||
      containsList "pt".data (h.data.map Char.toLower) ||
      containsList "id".data (h.data.map Char.toLower) then
    "patient_id"
  else if containsList "hosp".data (h.data.map Char.toLower) ||
      containsList "fac".data (h.data.map Char.toLower) ||
      containsList "loc".data (h.data.map Char.toLower) then
    "hospital"
  else if containsList "doc".data (h.data.map Char.toLower) ||
      containsList "phys".data (h.data.map Char.toLower) ||
      containsList "surg".data (h.data.map Char.toLower) ||
      containsList "attend".data (h.data.map Char.toLower) then
    "attending"
  else snakeCode h

/-- `mockColumnMapping`: build the mapping object header by header. -/
def mockColumnMapping (originalHeaders : List String) : List (String × String) :=
  originalHeaders.foldl (fun m h => setKey m h (mockHeaderName h)) []

/-! ## Spec-side restatement of the Heuristic Mapper (for the refinement
claim): an explicit ordered rule table evaluated top-to-bottom, and a
snake-case rewrite described as "lowercase, every run of non-alphanumeric
characters collapsed to a single underscore, leading and trailing
underscores stripped". -/

/-- Spec-side: collapse every run of non-alphanumeric characters to a
single underscore. -/
def collapseRuns : List Char → List Char
  | [] => []
  | c :: rest =>
    if isLowerAlnum c then c :: collapseRuns rest
    else '_' :: collapseRuns (rest.dropWhile (fun d => !isLowerAlnum d))
termination_by l => l.length
decreasing_by
  · simp
  · simp only [List.length_cons]
    exact Nat.lt_succ_of_le ((List.dropWhile_sublist _).length_le)

/-- Spec-side snake-case: lowercase, collapse non-alphanumeric runs to one
underscore each, strip all leading and trailing underscores. -/
def snakeSpec (s : String) : String :=
  String.mk (dropTrail (fun c => c = '_')
    ((collapseRuns (s.data.map Char.toLower)).dropWhile (fun c => c = '_')))

/-- The ordered rule table of spec section 4.2: keyword list and the
canonical name it assigns. -/
def ruleTable : List (List String × String) :=
  [(["date", "dt"], "procedure_date"),
   (["proc", "surg", "operation"], "procedure_type"),
   (["patient", "pt", "id"], "patient_id"),
   (["hosp", "fac", "loc"], "hospital"),
   (["doc", "phys", "surg", "attend"], "attending")]

/-- First-match-wins evaluation of the rule table over the lowercased
header. -/
def firstMatch (lh : List Char) : List (List String × String) → Option String
  | [] => none
  | (kws, role) :: rest =>
    if kws.any (fun k => containsList k.data lh) then some role
    else firstMatch lh rest

/-- Spec-side classifier: case-insensitive substring matching,
first-match-wins over `ruleTable`, else snake-case. -/
def specHeaderName (h : String) : String :=
  match firstMatch (h.data.map Char.toLower) ruleTable with
  | some role => role
  | none => snakeSpec h

/-! ## Mapping Resolver (`generateColumnMapping`)

The external reasoning service is modelled by the outcome its call
produces: the `fetch` itself may throw, the response may carry a non-ok
status (the source then throws), and extracting
`result.choices[0].message.content` and `JSON.parse`-ing it may fail (also
a throw).  Every throw lands in the `catch` that falls back to
`mockColumnMapping`.  A successfully parsed reply is any JSON value: an
object with string values, or anything else (`nonObj`). -/

/-- A JSON value as far as this pipeline distinguishes them: an object
with string values, or any non-object value. -/
inductive JsonVal where
  | obj (entries : List (String × String))
  | nonObj
deriving DecidableEq

/-- The reasoning-service HTTP response: its `ok` flag and the result of
extracting and `JSON.parse`-ing the reply content (`none` when any of
that throws). -/
structure HttpResponse where
  ok : Bool
  parsedContent : Option JsonVal
deriving DecidableEq

/-- Outcome of the `fetch` call: a transport error or a response. -/
inductive FetchOutcome where
  | netError
  | response (r : HttpResponse)
deriving DecidableEq

/-- The `try` block of `generateColumnMapping` after the key check: throws
on transport error, non-ok status, or unusable reply content; otherwise
returns the parsed reply verbatim. -/
def attemptReasoning : FetchOutcome → Except String JsonVal
  | .netError => .error "fetch failed"
  | .response r =>
    if r.ok = false then .error "OpenAI API responded with non-ok status"
    else
      match r.parsedContent with
      | none => .error "reply content missing or not parseable"
      | some v => .ok v

/-- `generateColumnMapping`: mock mapping when no (or an empty) API key is
configured, otherwise the reasoning attempt with the mock mapping as the
`catch`-all fallback. -/
def generateColumnMapping (apiKey : Option String) (fetch : FetchOutcome)
    (originalHeaders : List String) : JsonVal :=
  match apiKey with
  | none => .obj (mockColumnMapping originalHeaders)
  | some k =>
    if k = "" then .obj (mockColumnMapping originalHeaders)
    else
      match attemptReasoning fetch with
      | .ok mapping => mapping
      | .error _ => .obj (mockColumnMapping originalHeaders)

/-! ## Row Standardizer (`standardizeData`) -/

/-- `mapping[originalCol] || originalCol`: an absent key — including the
whole mapping not being an object — and the falsy empty string both fall
back to the original column name. -/
def resolveCol (mapping : JsonVal) (col : String) : String :=
  match mapping with
  | .obj m =>
    match getKey m col with
    | some v => if v = "" then col else v
    | none => col
  | .nonObj => col

/-- Standardize one row: iterate `Object.entries(row)` in ECMAScript
enumeration order, writing every entry under its resolved column name
(later entries in that order overwrite earlier ones landing on the same
name), then add an empty `cpt_code` field if none exists. -/
def standardizeRow (mapping : JsonVal) (row : Row) : Row :=
  let s := (jsEntries row).foldl
    (fun acc kv => setKey acc (resolveCol mapping kv.1) kv.2) []
  if hasKey s "cpt_code" then s else setKey s "cpt_code" ""

/-- `standardizeData`: map `standardizeRow` over the data. -/
def standardizeData (data : List Row) (mapping : JsonVal) : List Row :=
  data.map (standardizeRow mapping)

/-- The last value among the entries of a row that a column-resolution
function sends to the key `k` (used to state the lossy-merge behaviour). -/
def lastVal (f : String → String) (k : String) : Row → Option String
  | [] => none
  | kv :: rest =>
    match lastVal f k rest with
    | some v => some v
    | none => if f kv.1 = k then some kv.2 else none

/-! ## Pipeline Orchestrator (`handleStandardizeMode`)

Only the pure result assembly is modelled: file reading and JSON
serialization stay outside.  `none` stands for the two error payloads
(non-CSV file, no rows parsed). -/

/-- The `standardization` payload of a successful standardize-mode
response. -/
structure Standardization where
  original_headers : List String
  column_mapping : JsonVal
  standardized_data : List Row
  original_data : List Row
  total_rows : Nat
deriving DecidableEq

/-- `handleStandardizeMode`: parse, derive headers from the first row,
resolve the mapping, standardize, and truncate both previews to 100 rows
while reporting the full row count. -/
def handleStandardizeMode (isCsv : Bool) (apiKey : Option String)
    (fetch : FetchOutcome) (fileContent : String) : Option Standardization :=
  if isCsv = false then none
  else
    let parsedData := parseCSV fileContent
    if parsedData.length = 0 then none
    else
      let headers := keys (parsedData.headD [])
      let columnMapping := generateColumnMapping apiKey fetch headers
      let standardizedData := standardizeData parsedData columnMapping
      some ⟨headers, columnMapping, standardizedData.take 100,
        parsedData.take 100, parsedData.length⟩

/-! ## Well-formed CSV fields (for the quote-handling and round-trip
claims) -/

/-- A field as written in an input line: either bare text or text wrapped
in double quotes. -/
inductive CsvField where
  | plain (s : String)
  | quoted (s : String)

/-- The raw characters of the field as they appear in the line. -/
def CsvField.raw : CsvField → List Char
  | .plain s => s.data
  | .quoted s => '"' :: (s.data ++ ['"'])

/-- The text of the field without the quoting. -/
def CsvField.content : CsvField → String
  | .plain s => s
  | .quoted s => s

/-- Well-formedness: a bare field contains neither comma nor quote; a
quoted field contains no quote (commas are allowed). -/
def CsvField.wf : CsvField → Prop
  | .plain s => ',' ∉ s.data ∧ '"' ∉ s.data
  | .quoted s => '"' ∉ s.data

/-- A well-formed CSV cell for the round-trip property: unchanged by
trimming (no leading or trailing whitespace) and free of comma, quote,
newline and carriage-return characters. -/
def cellOK (s : String) : Prop :=
  trimStr s = s ∧ ',' ∉ s.data ∧ '"' ∉ s.data ∧ '\n' ∉ s.data ∧ '\r' ∉ s.data

/-- Serialize one CSV line from its cells. -/
def renderLine (cells : List String) : List Char :=
  joinSep ',' (cells.map String.data)

/-- Serialize a whole CSV text from header cells and data rows. -/
def renderCsv (headerCells : List String) (rows : List (List String)) : String :=
  String.mk (joinSep '\n' ((headerCells :: rows).map renderLine))

/-- The header list `parseCSV` derives for a text: the first non-blank
line, naively comma-split and trimmed. -/
def csvHeaders (text : String) : List String :=
  match (stripCRs (splitOnChar '\n' text.data)).filter
      (fun l => !(trimWS l).isEmpty) with
  | [] => []
  | headerLine :: _ => (splitOnChar ',' headerLine).map (fun c => String.mk (trimWS c))

/-- Both components of a row entry are unchanged by a further trim. -/
def trimmedPair (kv : String × String) : Prop :=
  trimStr kv.1 = kv.1 ∧ trimStr kv.2 = kv.2

/-- No two adjacent underscores. -/
def noTwoUnd : List Char → Prop
  | [] => True
  | [_] => True
  | a :: b :: t => ¬(a = '_' ∧ b = '_') ∧ noTwoUnd (b :: t)

/-! ## Association-list lemmas -/

theorem getKey_setKey (r : Row) (k v k2) :
    getKey (setKey r k v) k2 = if k2 = k then some v else getKey r k2 := by
  induction r with
  | nil => simp [setKey, getKey]
  | cons kv rest ih =>
    obtain ⟨k1, v1⟩ := kv
    by_cases h1 : k1 = k
    · subst h1
      by_cases h2 : k2 = k1 <;> simp [setKey, getKey, h2]
    · by_cases h2 : k2 = k1
      · subst h2
        simp [setKey, getKey, h1, Ne.symm h1]
      · simp [setKey, getKey, h1, h2, ih]

theorem getKey_eq_none (r : Row) (k) (h : k ∉ insKeys r) : getKey r k = none := by
  induction r with
  | nil => rfl
  | cons kv rest ih =>
    simp only [insKeys, List.map_cons, List.mem_cons, not_or] at h
    simp [getKey, h.1, ih (by simpa [insKeys] using h.2)]

theorem getKey_of_mem (r : Row) (kv) (hnd : (insKeys r).Nodup) (h : kv ∈ r) :
    getKey r kv.1 = some kv.2 := by
  induction r with
  | nil => simp at h
  | cons kv1 rest ih =>
    simp only [insKeys, List.map_cons, List.nodup_cons] at hnd
    rcases List.mem_cons.mp h with h | h
    · subst h
      simp [getKey]
    · have hne : kv.1 ≠ kv1.1 := by
        intro he
        exact hnd.1 (he ▸ List.mem_map_of_mem Prod.fst h)
      simp [getKey, hne, ih hnd.2 h]

theorem setKey_of_not_mem (r : Row) (k v) (h : k ∉ insKeys r) :
    setKey r k v = r ++ [(k, v)] := by
  induction r with
  | nil => rfl
  | cons kv rest ih =>
    simp only [insKeys, List.map_cons, List.mem_cons, not_or] at h
    simp [setKey, Ne.symm h.1, ih (by simpa [insKeys] using h.2)]

theorem keys_setKey (r : Row) (k v) :
    insKeys (setKey r k v) = if k ∈ insKeys r then insKeys r else insKeys r ++ [k] := by
  induction r with
  | nil => simp [setKey, insKeys]
  | cons kv rest ih =>
    obtain ⟨k1, v1⟩ := kv
    by_cases h1 : k1 = k
    · subst h1
      simp [setKey, insKeys]
    · have h1s : ¬ k = k1 := fun hh => h1 hh.symm
      have hsk : setKey ((k1, v1) :: rest) k v = (k1, v1) :: setKey rest k v := by
        simp [setKey, h1]
      rw [hsk]
      have hkc : insKeys ((k1, v1) :: setKey rest k v) = k1 :: insKeys (setKey rest k v) := rfl
      rw [hkc, ih, show insKeys ((k1, v1) :: rest) = k1 :: insKeys rest from rfl]
      by_cases h2 : k ∈ insKeys rest
      · rw [if_pos h2, if_pos (show k ∈ k1 :: insKeys rest from List.mem_cons.mpr (Or.inr h2))]
      · rw [if_neg h2, if_neg (show ¬ k ∈ k1 :: insKeys rest by
          simp [List.mem_cons, h1s, h2])]
        rfl

/-! ## Trim lemmas -/

theorem dropWhile_self (p : Char → Bool) (l : List Char) :
    (l.dropWhile p).dropWhile p = l.dropWhile p := by
  induction l with
  | nil => rfl
  | cons c rest ih =>
    by_cases h : p c
    · simp [List.dropWhile, h, ih]
    · simp [List.dropWhile, h]

theorem dropTrail_self (p : Char → Bool) (l : List Char) :
    dropTrail p (dropTrail p l) = dropTrail p l := by
  induction l with
  | nil => rfl
  | cons c rest ih =>
    cases hr : dropTrail p rest with
    | nil =>
      by_cases h : p c <;> simp [dropTrail, hr, h]
    | cons d r2 =>
      have h1 : dropTrail p (c :: rest) = c :: d :: r2 := by
        simp [dropTrail, hr]
      rw [hr] at ih
      rw [h1]
      rw [show dropTrail p (c :: d :: r2) =
        (match dropTrail p (d :: r2) with
         | [] => if p c = true then [] else [c]
         | r => c :: r) from rfl]
      rw [ih]

theorem dropTrail_head (p : Char → Bool) (l : List Char)
    (h : dropTrail p l ≠ []) : (dropTrail p l).head? = l.head? := by
  cases l with
  | nil => rfl
  | cons c rest =>
    cases hr : dropTrail p rest with
    | nil =>
      by_cases hp : p c <;> simp [dropTrail, hr, hp] at h ⊢
    | cons d r2 => simp [dropTrail, hr]

theorem head_dropWhile_not (p : Char → Bool) (l : List Char) (c : Char)
    (h : (l.dropWhile p).head? = some c) : p c = false := by
  induction l with
  | nil => simp at h
  | cons d rest ih =>
    by_cases hp : p d
    · exact ih (by simpa [List.dropWhile, hp] using h)
    · simp [List.dropWhile, hp] at h
      subst h
      simpa using hp

theorem dropWhile_eq_self_of_head (p : Char → Bool) (l : List Char)
    (h : ∀ c, l.head? = some c → p c = false) : l.dropWhile p = l := by
  cases l with
  | nil => rfl
  | cons c rest => simp [List.dropWhile, h c rfl]

theorem trimWS_self (l : List Char) : trimWS (trimWS l) = trimWS l := by
  unfold trimWS
  rw [dropWhile_eq_self_of_head, dropTrail_self]
  intro c hc
  rcases hni : dropTrail isWS (l.dropWhile isWS) with _ | ⟨d, r⟩
  · simp [hni] at hc
  · have h1 : (dropTrail isWS (l.dropWhile isWS)).head? = (l.dropWhile isWS).head? :=
      dropTrail_head _ _ (by simp [hni])
    rw [hni] at h1 hc
    exact head_dropWhile_not isWS l c (h1 ▸ hc)

theorem trimStr_self (l : List Char) :
    trimStr (String.mk (trimWS l)) = String.mk (trimWS l) := by
  simp [trimStr, trimWS_self]

theorem trimStr_empty : trimStr "" = "" := rfl

/-! ## The quote-aware loop as a field-list computation -/

theorem parseRowLoop_eq (headers : List String) (cs : List Char) :
    ∀ fv inQ cur row, parseRowLoop headers cs fv inQ cur row =
      applyFields headers (charFieldsAux cs fv inQ) cur row := by
  induction cs with
  | nil =>
    intro fv inQ cur row
    simp [parseRowLoop, charFieldsAux, applyFields]
  | cons c rest ih =>
    intro fv inQ cur row
    by_cases hq : c = '"'
    · simp [parseRowLoop, charFieldsAux, hq, ih]
    · by_cases hc : c = ',' ∧ inQ = false
      · simp [parseRowLoop, charFieldsAux, hq, hc, ih, applyFields]
      · simp [parseRowLoop, charFieldsAux, hq, hc, ih]

theorem applyFields_eq (headers : List String) (fs : List (List Char)) :
    ∀ cur row, headers.Nodup → (∀ k ∈ insKeys row, k ∉ headers.drop cur) →
    applyFields headers fs cur row =
      row ++ (headers.drop cur).zip (fs.map (fun f => String.mk (trimWS f))) := by
  induction fs with
  | nil =>
    intro cur row _ _
    simp [applyFields]
  | cons f fs2 ih =>
    intro cur row hnd hdisj
    by_cases hcur : cur < headers.length
    · have hgd : headers.getD cur "" = headers[cur] := by
        simp [List.getD_eq_getElem?_getD, List.getElem?_eq_getElem hcur]
      have hdrop : headers.drop cur = headers[cur] :: headers.drop (cur + 1) :=
        List.drop_eq_getElem_cons hcur
      have hmemdrop : headers[cur] ∈ headers.drop cur := by
        rw [hdrop]; exact List.mem_cons_self _ _
      have hnotrow : headers[cur] ∉ insKeys row := fun hmem => hdisj _ hmem hmemdrop
      have hnotdrop : headers[cur] ∉ headers.drop (cur + 1) := by
        have hnodupdrop : (headers.drop cur).Nodup :=
          (List.drop_sublist cur headers).nodup hnd
        rw [hdrop] at hnodupdrop
        exact (List.nodup_cons.mp hnodupdrop).1
      have hset : setKey row (headers.getD cur "") (String.mk (trimWS f)) =
          row ++ [(headers[cur], String.mk (trimWS f))] := by
        rw [hgd]
        exact setKey_of_not_mem _ _ _ hnotrow
      have hdisj2 : ∀ k ∈ insKeys (row ++ [(headers[cur], String.mk (trimWS f))]),
          k ∉ headers.drop (cur + 1) := by
        intro k hk
        simp only [insKeys, List.map_append, List.map_cons, List.map_nil,
          List.mem_append, List.mem_cons, List.not_mem_nil, or_false] at hk
        rcases hk with hk | hk
        · intro hmem
          exact hdisj k hk (by rw [hdrop]; exact List.mem_cons_of_mem _ hmem)
        · subst hk
          exact hnotdrop
      rw [show applyFields headers (f :: fs2) cur row =
        applyFields headers fs2 (cur + 1)
          (if cur < headers.length then
            setKey row (headers.getD cur "") (String.mk (trimWS f))
          else row) from rfl]
      rw [if_pos hcur, hset, ih (cur + 1) _ hnd hdisj2, hdrop, List.map_cons,
        List.zip_cons_cons]
      simp [List.append_assoc]
    · have hdrop : headers.drop cur = [] :=
        List.drop_eq_nil_of_le (Nat.le_of_not_lt hcur)
      have hdrop2 : headers.drop (cur + 1) = [] :=
        List.drop_eq_nil_of_le (Nat.le_succ_of_le (Nat.le_of_not_lt hcur))
      rw [show applyFields headers (f :: fs2) cur row =
        applyFields headers fs2 (cur + 1)
          (if cur < headers.length then
            setKey row (headers.getD cur "") (String.mk (trimWS f))
          else row) from rfl]
      rw [if_neg hcur, ih (cur + 1) _ hnd (by simp [hdrop2]), hdrop, hdrop2]
      simp

theorem keys_zip (hs : List String) :
    ∀ vs : List String, insKeys (hs.zip vs) = hs.take vs.length := by
  induction hs with
  | nil => intro vs; simp [insKeys]
  | cons h t ih =>
    intro vs
    cases vs with
    | nil => simp [insKeys]
    | cons v vt => simp [insKeys, List.zip_cons_cons, List.take_succ_cons, ← ih]

theorem getKey_zip (hs : List String) :
    ∀ vs : List String, hs.Nodup → ∀ i, i < hs.length → i < vs.length →
    getKey (hs.zip vs) (hs.getD i "") = some (vs.getD i "") := by
  induction hs with
  | nil => intro vs _ i hi; simp at hi
  | cons h t ih =>
    intro vs hnd i hi hv
    cases vs with
    | nil => simp at hv
    | cons v vt =>
      cases i with
      | zero => simp [getKey]
      | succ i2 =>
        have hnd2 := List.nodup_cons.mp hnd
        have hi2 : i2 < t.length := Nat.lt_of_succ_lt_succ hi
        have hv2 : i2 < vt.length := Nat.lt_of_succ_lt_succ hv
        have hkey : (h :: t).getD (i2 + 1) "" = t.getD i2 "" := by simp
        have hmem : t.getD i2 "" ∈ t := by
          rw [List.getD_eq_getElem?_getD, List.getElem?_eq_getElem hi2]
          exact List.getElem_mem hi2
        have hne : t.getD i2 "" ≠ h := fun he => hnd2.1 (he ▸ hmem)
        rw [hkey, List.zip_cons_cons,
          show getKey ((h, v) :: t.zip vt) (t.getD i2 "") =
            if t.getD i2 "" = h then some v else getKey (t.zip vt) (t.getD i2 "")
            from rfl,
          if_neg hne, ih vt hnd2.2 i2 hi2 hv2]
        simp

/-! ## The naive fallback -/

theorem fillAll_getKey_not_mem (values : List (List Char)) (hs : List String) :
    ∀ i row k, k ∉ hs → getKey (fillAll values hs i row) k = getKey row k := by
  induction hs with
  | nil => intro i row k _; rfl
  | cons h t ih =>
    intro i row k hk
    simp only [List.mem_cons, not_or] at hk
    rw [show fillAll values (h :: t) i row =
      fillAll values t (i + 1) (setKey row h (padVal values i)) from rfl]
    rw [ih _ _ _ hk.2, getKey_setKey, if_neg hk.1]

theorem fillAll_getKey (values : List (List Char)) (hs : List String) :
    ∀ i0 row, hs.Nodup → ∀ i, i < hs.length →
    getKey (fillAll values hs i0 row) (hs.getD i "") = some (padVal values (i0 + i)) := by
  induction hs with
  | nil => intro i0 row _ i hi; simp at hi
  | cons h t ih =>
    intro i0 row hnd i hi
    have hnd2 := List.nodup_cons.mp hnd
    rw [show fillAll values (h :: t) i0 row =
      fillAll values t (i0 + 1) (setKey row h (padVal values i0)) from rfl]
    cases i with
    | zero =>
      rw [show (h :: t).getD 0 "" = h from rfl,
        fillAll_getKey_not_mem values t _ _ _ hnd2.1, getKey_setKey, if_pos rfl]
      simp
    | succ i2 =>
      have hi2 : i2 < t.length := Nat.lt_of_succ_lt_succ hi
      rw [show (h :: t).getD (i2 + 1) "" = t.getD i2 "" by simp,
        ih (i0 + 1) _ hnd2.2 i2 hi2,
        show i0 + 1 + i2 = i0 + (i2 + 1) by omega]

theorem fillAll_keys (values : List (List Char)) (hs : List String) :
    ∀ i row, hs.Nodup →
    insKeys (fillAll values hs i row) =
      insKeys row ++ hs.filter (fun x => decide (x ∉ insKeys row)) := by
  induction hs with
  | nil => intro i row _; simp [fillAll]
  | cons h t ih =>
    intro i row hnd
    have hnd2 := List.nodup_cons.mp hnd
    rw [show fillAll values (h :: t) i row =
      fillAll values t (i + 1) (setKey row h (padVal values i)) from rfl]
    rw [ih _ _ hnd2.2, keys_setKey]
    by_cases hm : h ∈ insKeys row
    · rw [if_pos hm]
      have hfil : (h :: t).filter (fun x => decide (x ∉ insKeys row)) =
          t.filter (fun x => decide (x ∉ insKeys row)) := by
        simp [List.filter_cons, hm]
      rw [hfil]
    · rw [if_neg hm]
      have hfil : (h :: t).filter (fun x => decide (x ∉ insKeys row)) =
          h :: t.filter (fun x => decide (x ∉ insKeys row)) := by
        simp [List.filter_cons, hm]
      rw [hfil]
      have hcongr : t.filter (fun x => decide (x ∉ insKeys row ++ [h])) =
          t.filter (fun x => decide (x ∉ insKeys row)) := by
        apply List.filter_congr
        intro x hx
        have hxh : x ≠ h := fun he => hnd2.1 (he ▸ hx)
        simp [List.mem_append, hxh]
      rw [hcongr]
      simp

theorem filter_append_disjoint (l1 l2 : List String) (hd : l1.Disjoint l2) :
    (l1 ++ l2).filter (fun x => decide (x ∉ l1)) = l2 := by
  rw [List.filter_append]
  have h1 : l1.filter (fun x => decide (x ∉ l1)) = [] := by
    rw [List.filter_eq_nil_iff]
    intro a ha
    simp [ha]
  have h2 : l2.filter (fun x => decide (x ∉ l1)) = l2 := by
    rw [List.filter_eq_self]
    intro a ha
    have hnm : a ∉ l1 := fun hmem => hd hmem ha
    simp [hnm]
  rw [h1, h2, List.nil_append]

theorem filter_take_drop (hs : List String) (m : Nat) (hnd : hs.Nodup) :
    hs.filter (fun x => decide (x ∉ hs.take m)) = hs.drop m := by
  have hsplit : (hs.take m).Disjoint (hs.drop m) :=
    (List.nodup_append.mp (by rw [List.take_append_drop]; exact hnd)).2.2
  have hkey := filter_append_disjoint (hs.take m) (hs.drop m) hsplit
  rwa [List.take_append_drop] at hkey

/-! ## Field counts -/

theorem splitOnChar_ne_nil (sep : Char) (l : List Char) : splitOnChar sep l ≠ [] := by
  cases l with
  | nil => simp [splitOnChar]
  | cons c rest =>
    by_cases h : c = sep
    · simp [splitOnChar, h]
    · simp only [splitOnChar, if_neg h]
      cases hs : splitOnChar sep rest <;> simp

theorem length_splitOnChar_cons (sep c : Char) (l : List Char) :
    (splitOnChar sep (c :: l)).length =
      if c = sep then (splitOnChar sep l).length + 1
      else (splitOnChar sep l).length := by
  by_cases h : c = sep
  · simp [splitOnChar, h]
  · simp only [splitOnChar, if_neg h]
    cases hs : splitOnChar sep l with
    | nil => exact absurd hs (splitOnChar_ne_nil sep l)
    | cons f fs => simp

/-- The quote-aware loop never finds more fields than the naive comma
split: it splits at a subset of the commas. -/
theorem charFieldsAux_length_le (cs : List Char) :
    ∀ fv inQ, (charFieldsAux cs fv inQ).length ≤ (splitOnChar ',' cs).length := by
  induction cs with
  | nil => intro fv inQ; simp [charFieldsAux, splitOnChar]
  | cons c rest ih =>
    intro fv inQ
    rw [length_splitOnChar_cons]
    by_cases hq : c = '"'
    · have hcs : ¬ c = ',' := by rw [hq]; decide
      simp only [charFieldsAux, if_pos hq]
      rw [if_neg hcs]
      exact ih fv (!inQ)
    · by_cases hc : c = ',' ∧ inQ = false
      · simp only [charFieldsAux, if_neg hq, if_pos hc]
        rw [if_pos hc.1]
        simpa using ih [] inQ
      · simp only [charFieldsAux, if_neg hq, if_neg hc]
        by_cases hcomma : c = ','
        · rw [if_pos hcomma]
          exact Nat.le_succ_of_le (ih (fv ++ [c]) inQ)
        · rw [if_neg hcomma]
          exact ih (fv ++ [c]) inQ

/-! ## The master row characterization -/

theorem getD_map_mk (l : List (List Char)) (i : Nat) (hi : i < l.length) :
    (l.map (fun f => String.mk (trimWS f))).getD i "" =
      String.mk (trimWS (l.getD i [])) := by
  simp [List.getD_eq_getElem?_getD, List.getElem?_map, List.getElem?_eq_getElem hi]

theorem parseRowLoop_zip (headers : List String) (hnd : headers.Nodup)
    (line : List Char) :
    parseRowLoop headers line [] false 0 [] =
      headers.zip ((charFields line).map (fun f => String.mk (trimWS f))) := by
  rw [parseRowLoop_eq]
  have h := applyFields_eq headers (charFieldsAux line [] false) 0 [] hnd
    (by intro k hk; simp [insKeys] at hk)
  simpa [charFields] using h

/-- Full characterization of one parsed row, for distinct headers: the key
list is exactly the header list, and the value at header `i` comes from
the quote-aware parse when it found at least one field per header, and
from the padded naive comma split otherwise. -/
theorem parseRow_spec (headers : List String) (line : List Char)
    (hnd : headers.Nodup) :
    insKeys (parseRow headers line) = headers ∧
    ∀ i, i < headers.length →
      getKey (parseRow headers line) (headers.getD i "") =
        some (if (charFields line).length < headers.length
              then padVal (splitOnChar ',' line) i
              else String.mk (trimWS ((charFields line).getD i []))) := by
  have hrow := parseRowLoop_zip headers hnd line
  have hcflen : ((charFields line).map (fun f => String.mk (trimWS f))).length =
      (charFields line).length := by simp
  by_cases hfb : (charFields line).length < headers.length
  · have hlt : (parseRowLoop headers line [] false 0 []).length < headers.length := by
      rw [hrow, List.length_zip, hcflen]
      omega
    have hpr : parseRow headers line =
        fillAll (splitOnChar ',' line) headers 0
          (headers.zip ((charFields line).map (fun f => String.mk (trimWS f)))) := by
      simp only [parseRow]
      rw [if_pos hlt, hrow]
    constructor
    · rw [hpr, fillAll_keys _ _ _ _ hnd]
      rw [keys_zip headers _, hcflen]
      rw [filter_take_drop headers (charFields line).length hnd,
        List.take_append_drop]
    · intro i hi
      rw [hpr, fillAll_getKey _ _ 0 _ hnd i hi, if_pos hfb]
      simp
  · have hge : headers.length ≤ (charFields line).length := Nat.le_of_not_lt hfb
    have hnlt : ¬ (parseRowLoop headers line [] false 0 []).length < headers.length := by
      rw [hrow, List.length_zip, hcflen]
      omega
    have hpr : parseRow headers line =
        headers.zip ((charFields line).map (fun f => String.mk (trimWS f))) := by
      simp only [parseRow]
      rw [if_neg hnlt, hrow]
    constructor
    · rw [hpr, keys_zip, hcflen, List.take_of_length_le hge]
    · intro i hi
      rw [hpr, getKey_zip headers _ hnd i hi (by rw [hcflen]; omega), if_neg hfb]
      rw [getD_map_mk _ i (by omega)]

/-! ## Row Standardizer lemmas -/

theorem foldl_setKey_getKey (f : String → String) (row : Row) :
    ∀ acc0 k, getKey (row.foldl (fun acc kv => setKey acc (f kv.1) kv.2) acc0) k =
      match lastVal f k row with
      | some v => some v
      | none => getKey acc0 k := by
  induction row with
  | nil => intro acc0 k; rfl
  | cons kv rest ih =>
    intro acc0 k
    rw [List.foldl_cons, ih]
    cases hl : lastVal f k rest with
    | some v => simp [lastVal, hl]
    | none =>
      simp only [lastVal, hl]
      rw [getKey_setKey]
      by_cases he : f kv.1 = k
      · rw [if_pos he, if_pos he.symm]
      · rw [if_neg he, if_neg (fun hh => he hh.symm)]

theorem getKey_standardizeBase (mapping : JsonVal) (row : Row) (k : String) :
    getKey (row.foldl (fun acc kv => setKey acc (resolveCol mapping kv.1) kv.2) []) k =
      match lastVal (resolveCol mapping) k row with
      | some v => some v
      | none => none := by
  rw [foldl_setKey_getKey]
  cases lastVal (resolveCol mapping) k row <;> rfl

theorem standardizeRow_getKey (mapping : JsonVal) (row : Row) (k : String) :
    getKey (standardizeRow mapping row) k =
      match lastVal (resolveCol mapping) k (jsEntries row) with
      | some v => some v
      | none => if k = "cpt_code" then some "" else none := by
  unfold standardizeRow
  by_cases hc : hasKey ((jsEntries row).foldl
      (fun acc kv => setKey acc (resolveCol mapping kv.1) kv.2) []) "cpt_code"
  · rw [if_pos hc, getKey_standardizeBase]
    cases hl : lastVal (resolveCol mapping) k (jsEntries row) with
    | some v => rfl
    | none =>
      by_cases hk : k = "cpt_code"
      · subst hk
        exfalso
        unfold hasKey at hc
        rw [getKey_standardizeBase, hl] at hc
        simp at hc
      · simp [hk]
  · rw [if_neg hc, getKey_setKey]
    by_cases hk : k = "cpt_code"
    · subst hk
      rw [if_pos rfl]
      cases hl : lastVal (resolveCol mapping) "cpt_code" (jsEntries row) with
      | some v =>
        exfalso
        unfold hasKey at hc
        rw [getKey_standardizeBase, hl] at hc
        simp at hc
      | none => simp
    · rw [if_neg hk, getKey_standardizeBase]
      cases hl : lastVal (resolveCol mapping) k (jsEntries row) with
      | some v => rfl
      | none => simp [hk]

/-- `lastVal` is `none` exactly when no entry resolves to the key. -/
theorem lastVal_eq_none_iff (f : String → String) (k : String) :
    ∀ l : Row, lastVal f k l = none ↔ ∀ kv ∈ l, ¬ f kv.1 = k := by
  intro l
  induction l with
  | nil => simp [lastVal]
  | cons kv rest ih =>
    rw [show lastVal f k (kv :: rest) =
      (match lastVal f k rest with
       | some v => some v
       | none => if f kv.1 = k then some kv.2 else none) from rfl]
    constructor
    · intro h kv2 hkv2
      cases hr : lastVal f k rest with
      | some v =>
        rw [hr] at h
        simp at h
      | none =>
        rw [hr] at h
        rcases List.mem_cons.mp hkv2 with hkv2 | hkv2
        · subst hkv2
          intro he
          rw [if_pos he] at h
          simp at h
        · exact (ih.mp hr) kv2 hkv2
    · intro h
      have hr : lastVal f k rest = none :=
        ih.mpr (fun kv2 hkv2 => h kv2 (List.mem_cons_of_mem _ hkv2))
      rw [hr, if_neg (h kv (List.mem_cons_self _ _))]

/-- A successful lookup returns a binding of the row. -/
theorem getKey_mem (r : Row) (k v : String) (h : getKey r k = some v) :
    (k, v) ∈ r := by
  induction r with
  | nil => simp [getKey] at h
  | cons kv rest ih =>
    obtain ⟨k1, v1⟩ := kv
    by_cases he : k = k1
    · subst he
      rw [show getKey ((k, v1) :: rest) k = some v1 from by simp [getKey]] at h
      injection h with h
      subst h
      exact List.mem_cons_self _ _
    · rw [show getKey ((k1, v1) :: rest) k = getKey rest k from by
        simp [getKey, he]] at h
      exact List.mem_cons_of_mem _ (ih h)

/-- Every enumerated entry is a binding of the row. -/
theorem mem_jsEntries (r : Row) (kv : String × String) (h : kv ∈ jsEntries r) :
    kv ∈ r := by
  unfold jsEntries at h
  rcases List.mem_filterMap.mp h with ⟨k2, _, hmap⟩
  cases hg : getKey r k2 with
  | none =>
    rw [hg] at hmap
    simp at hmap
  | some v =>
    rw [hg] at hmap
    simp at hmap
    rw [← hmap]
    exact getKey_mem r k2 v hg

/-- Without array-index-like keys, enumeration order is creation order. -/
theorem keys_eq_insKeys (r : Row) (hni : ∀ kv ∈ r, isArrayIndex kv.1 = false) :
    keys r = insKeys r := by
  unfold keys enumOrder
  have h1 : (insKeys r).filter (fun s => isArrayIndex s) = [] := by
    rw [List.filter_eq_nil_iff]
    intro a ha
    rcases List.mem_map.mp ha with ⟨kv, hkv, hfst⟩
    simp [← hfst, hni kv hkv]
  have h2 : (insKeys r).filter (fun s => !isArrayIndex s) = insKeys r := by
    rw [List.filter_eq_self]
    intro a ha
    rcases List.mem_map.mp ha with ⟨kv, hkv, hfst⟩
    simp [← hfst, hni kv hkv]
  rw [h1, h2]
  rfl

/-- Looking every creation-order key back up reproduces a unique-keyed
row. -/
theorem entries_from_insKeys (r : Row) (hnd : (insKeys r).Nodup) :
    (insKeys r).filterMap (fun k => (getKey r k).map (fun v => (k, v))) = r := by
  induction r with
  | nil => rfl
  | cons kv rest ih =>
    obtain ⟨k1, v1⟩ := kv
    have hnd2 : k1 ∉ insKeys rest ∧ (insKeys rest).Nodup := by
      have hh : (k1 :: insKeys rest).Nodup := hnd
      exact List.nodup_cons.mp hh
    have hins : insKeys ((k1, v1) :: rest) = k1 :: insKeys rest := rfl
    have hg1 : getKey ((k1, v1) :: rest) k1 = some v1 := by simp [getKey]
    have htail : (insKeys rest).filterMap
        (fun k => (getKey ((k1, v1) :: rest) k).map (fun v => (k, v))) =
        (insKeys rest).filterMap
        (fun k => (getKey rest k).map (fun v => (k, v))) := by
      apply List.filterMap_congr
      intro k hk
      have hne : ¬ k = k1 := fun he => hnd2.1 (he ▸ hk)
      simp [getKey, hne]
    simp only [hins, List.filterMap_cons, hg1, Option.map_some']
    rw [htail, ih hnd2.2]

/-- For a unique-keyed row with no array-index-like keys,
`Object.entries` is the row itself. -/
theorem jsEntries_eq_self (r : Row) (hnd : (insKeys r).Nodup)
    (hni : ∀ kv ∈ r, isArrayIndex kv.1 = false) : jsEntries r = r := by
  unfold jsEntries
  rw [keys_eq_insKeys r hni]
  exact entries_from_insKeys r hnd

/-! ## Everything the Tokenizer emits is trimmed -/

theorem setKey_trimmed (r : Row) (k v) (hr : ∀ kv ∈ r, trimmedPair kv)
    (hk : trimStr k = k) (hv : trimStr v = v) :
    ∀ kv ∈ setKey r k v, trimmedPair kv := by
  induction r with
  | nil =>
    intro kv hkv
    simp only [setKey, List.mem_singleton] at hkv
    subst hkv
    exact ⟨hk, hv⟩
  | cons kv1 rest ih =>
    intro kv hkv
    by_cases h1 : kv1.1 = k
    · obtain ⟨k1, v1⟩ := kv1
      simp only at h1
      simp only [setKey, if_pos h1, List.mem_cons] at hkv
      rcases hkv with hkv | hkv
      · subst hkv
        exact ⟨h1 ▸ hk, hv⟩
      · exact hr kv (List.mem_cons_of_mem _ hkv)
    · obtain ⟨k1, v1⟩ := kv1
      simp only at h1
      simp only [setKey, if_neg h1, List.mem_cons] at hkv
      rcases hkv with hkv | hkv
      · subst hkv
        exact hr (k1, v1) (List.mem_cons_self _ _)
      · exact ih (fun kv2 hkv2 => hr kv2 (List.mem_cons_of_mem _ hkv2)) kv hkv

theorem applyFields_trimmed (headers : List String)
    (hh : ∀ h ∈ headers, trimStr h = h) (fs : List (List Char)) :
    ∀ cur row, (∀ kv ∈ row, trimmedPair kv) →
    ∀ kv ∈ applyFields headers fs cur row, trimmedPair kv := by
  induction fs with
  | nil => intro cur row hr kv hkv; exact hr kv hkv
  | cons f fs2 ih =>
    intro cur row hr kv hkv
    rw [show applyFields headers (f :: fs2) cur row =
      applyFields headers fs2 (cur + 1)
        (if cur < headers.length then
          setKey row (headers.getD cur "") (String.mk (trimWS f))
        else row) from rfl] at hkv
    by_cases hcur : cur < headers.length
    · rw [if_pos hcur] at hkv
      refine ih (cur + 1) _ ?_ kv hkv
      apply setKey_trimmed _ _ _ hr
      · apply hh
        rw [List.getD_eq_getElem?_getD, List.getElem?_eq_getElem hcur]
        exact List.getElem_mem hcur
      · exact trimStr_self f
    · rw [if_neg hcur] at hkv
      exact ih (cur + 1) _ hr kv hkv

theorem padVal_trimmed (values : List (List Char)) (i : Nat) :
    trimStr (padVal values i) = padVal values i := by
  unfold padVal
  by_cases h : i < values.length
  · rw [if_pos h]
    exact trimStr_self _
  · rw [if_neg h]
    rfl

theorem fillAll_trimmed (values : List (List Char)) (hs : List String)
    (hh : ∀ h ∈ hs, trimStr h = h) :
    ∀ i row, (∀ kv ∈ row, trimmedPair kv) →
    ∀ kv ∈ fillAll values hs i row, trimmedPair kv := by
  induction hs with
  | nil => intro i row hr kv hkv; exact hr kv hkv
  | cons h t ih =>
    intro i row hr kv hkv
    rw [show fillAll values (h :: t) i row =
      fillAll values t (i + 1) (setKey row h (padVal values i)) from rfl] at hkv
    refine ih (fun h2 hm => hh h2 (List.mem_cons_of_mem _ hm)) (i + 1) _ ?_ kv hkv
    exact setKey_trimmed _ _ _ hr (hh h (List.mem_cons_self _ _))
      (padVal_trimmed values i)

theorem parseRow_trimmed (headers : List String)
    (hh : ∀ h ∈ headers, trimStr h = h) (line : List Char) :
    ∀ kv ∈ parseRow headers line, trimmedPair kv := by
  intro kv hkv
  have hbase : ∀ kv2 ∈ parseRowLoop headers line [] false 0 [], trimmedPair kv2 := by
    rw [parseRowLoop_eq]
    exact applyFields_trimmed headers hh _ 0 [] (by intro kv2 hkv2; simp at hkv2)
  unfold parseRow at hkv
  by_cases hlt : (parseRowLoop headers line [] false 0 []).length < headers.length
  · rw [if_pos hlt] at hkv
    exact fillAll_trimmed _ headers hh 0 _ hbase kv hkv
  · rw [if_neg hlt] at hkv
    exact hbase kv hkv

theorem parseCSV_trimmed (text : String) :
    ∀ row ∈ parseCSV text, ∀ kv ∈ row, trimmedPair kv := by
  intro row hrow kv hkv
  unfold parseCSV at hrow
  cases hlines : (stripCRs (splitOnChar '\n' text.data)).filter
      (fun l => !(trimWS l).isEmpty) with
  | nil => rw [hlines] at hrow; simp at hrow
  | cons headerLine dataLines =>
    rw [hlines] at hrow
    simp only [List.mem_map] at hrow
    obtain ⟨line, _, hline⟩ := hrow
    subst hline
    refine parseRow_trimmed _ ?_ line kv hkv
    intro h hm
    simp only [List.mem_map] at hm
    obtain ⟨c, _, hc⟩ := hm
    subst hc
    exact trimStr_self c

/-! ## Snake-case equivalence: the chained regex replaces of the source
equal the single-pass description of the spec. -/

theorem alnum_ne_und {c : Char} (h : isLowerAlnum c = true) : c ≠ '_' := by
  intro he
  subst he
  exact absurd h (by decide)

theorem noTwoUnd_tail {c : Char} {t : List Char} (h : noTwoUnd (c :: t)) :
    noTwoUnd t := by
  cases t with
  | nil => trivial
  | cons b t2 => exact h.2

theorem noTwoUnd_cons_of_ne {c : Char} {t : List Char} (hc : c ≠ '_')
    (ht : noTwoUnd t) : noTwoUnd (c :: t) := by
  cases t with
  | nil => trivial
  | cons b t2 => exact ⟨fun hp => hc hp.1, ht⟩

theorem noTwoUnd_dropWhile (p : Char → Bool) (l : List Char)
    (h : noTwoUnd l) : noTwoUnd (l.dropWhile p) := by
  induction l with
  | nil => trivial
  | cons c t ih =>
    by_cases hp : p c
    · rw [List.dropWhile_cons_of_pos hp]
      exact ih (noTwoUnd_tail h)
    · rwa [List.dropWhile_cons_of_neg hp]

theorem collapseRuns_nil : collapseRuns [] = [] := by rw [collapseRuns]

theorem collapseRuns_cons (c : Char) (rest : List Char) :
    collapseRuns (c :: rest) =
      if isLowerAlnum c then c :: collapseRuns rest
      else '_' :: collapseRuns (rest.dropWhile (fun d => !isLowerAlnum d)) := by
  rw [collapseRuns]

theorem collapseUnd_nil : collapseUnd [] = [] := by rw [collapseUnd]

theorem collapseUnd_cons (c : Char) (rest : List Char) :
    collapseUnd (c :: rest) =
      if c = '_' then '_' :: collapseUnd (rest.dropWhile (fun d => d = '_'))
      else c :: collapseUnd rest := by
  rw [collapseUnd]

/-- Replacing all non-alphanumerics by underscores and then collapsing
underscore runs is the same as collapsing non-alphanumeric runs directly. -/
theorem collapseUnd_map :
    ∀ n l, List.length l ≤ n →
    collapseUnd (l.map (fun c => if isLowerAlnum c then c else '_')) =
      collapseRuns l := by
  intro n
  induction n with
  | zero =>
    intro l hl
    rw [Nat.le_zero, List.length_eq_zero] at hl
    subst hl
    simp [collapseUnd_nil, collapseRuns_nil]
  | succ n ih =>
    intro l hl
    cases l with
    | nil => simp [collapseUnd_nil, collapseRuns_nil]
    | cons c rest =>
      simp only [List.length_cons, Nat.succ_le_succ_iff] at hl
      rw [List.map_cons]
      by_cases ha : isLowerAlnum c
      · rw [if_pos ha, collapseUnd_cons, collapseRuns_cons,
          if_neg (alnum_ne_und ha), if_pos ha, ih rest hl]
      · have hpt : ((fun d => decide (d = '_')) ∘
            (fun c => if isLowerAlnum c = true then c else '_')) =
            (fun d => !isLowerAlnum d) := by
          funext a
          by_cases hb : isLowerAlnum a
          · simp [Function.comp, hb, alnum_ne_und hb]
          · simp [Function.comp, hb]
        rw [if_neg ha, collapseUnd_cons, collapseRuns_cons,
          if_pos (show ('_' : Char) = '_' from rfl), if_neg ha,
          List.dropWhile_map]
        rw [show ((fun d => decide (d = '_')) ∘
            (fun c => if isLowerAlnum c = true then c else '_')) =
            (fun d => !isLowerAlnum d) from hpt]
        rw [ih _ (Nat.le_trans ((List.dropWhile_sublist _).length_le) hl)]

theorem noTwoUnd_collapseRuns :
    ∀ n l, List.length l ≤ n → noTwoUnd (collapseRuns l) := by
  intro n
  induction n with
  | zero =>
    intro l hl
    rw [Nat.le_zero, List.length_eq_zero] at hl
    subst hl
    rw [collapseRuns_nil]
    trivial
  | succ n ih =>
    intro l hl
    cases l with
    | nil =>
      rw [collapseRuns_nil]
      trivial
    | cons c rest =>
      simp only [List.length_cons, Nat.succ_le_succ_iff] at hl
      rw [collapseRuns_cons]
      by_cases ha : isLowerAlnum c
      · rw [if_pos ha]
        exact noTwoUnd_cons_of_ne (alnum_ne_und ha) (ih rest hl)
      · rw [if_neg ha]
        cases hd : rest.dropWhile (fun d => !isLowerAlnum d) with
        | nil =>
          rw [collapseRuns_nil]
          trivial
        | cons d t =>
          have hdal : isLowerAlnum d = true := by
            have hh := head_dropWhile_not (fun d => !isLowerAlnum d) rest d
              (by rw [hd]; rfl)
            simpa using hh
          have hlen : (d :: t).length ≤ n := by
            rw [← hd]
            exact Nat.le_trans ((List.dropWhile_sublist _).length_le) hl
          have hcr := ih (d :: t) hlen
          rw [collapseRuns_cons, if_pos hdal] at hcr ⊢
          exact ⟨fun hp => (alnum_ne_und hdal) hp.2, hcr⟩

theorem dropTrail_eq_nil_iff (p : Char → Bool) (l : List Char) :
    dropTrail p l = [] ↔ ∀ c ∈ l, p c = true := by
  induction l with
  | nil => simp [dropTrail]
  | cons c t ih =>
    constructor
    · intro h
      rw [show dropTrail p (c :: t) =
        (match dropTrail p t with
         | [] => if p c = true then [] else [c]
         | r => c :: r) from rfl] at h
      cases ht : dropTrail p t with
      | nil =>
        rw [ht] at h
        by_cases hp : p c
        · intro d hd
          rcases List.mem_cons.mp hd with hd | hd
          · subst hd; exact hp
          · exact (ih.mp ht) d hd
        · rw [if_neg hp] at h
          simp at h
      | cons r1 r2 =>
        rw [ht] at h
        simp at h
    · intro h
      have ht : dropTrail p t = [] := ih.mpr (fun d hd => h d (List.mem_cons_of_mem _ hd))
      rw [show dropTrail p (c :: t) =
        (match dropTrail p t with
         | [] => if p c = true then [] else [c]
         | r => c :: r) from rfl, ht, if_pos (h c (List.mem_cons_self _ _))]

theorem dropLeadOne_eq_dropWhile (l : List Char) (h : noTwoUnd l) :
    dropLeadOne l = l.dropWhile (fun c => decide (c = '_')) := by
  cases l with
  | nil => rfl
  | cons c t =>
    by_cases hc : c = '_'
    · subst hc
      rw [show dropLeadOne ('_' :: t) = t from by simp [dropLeadOne],
        List.dropWhile_cons_of_pos (by simp)]
      cases t with
      | nil => rfl
      | cons d t2 =>
        have hd : d ≠ '_' := fun he => h.1 ⟨rfl, he⟩
        rw [List.dropWhile_cons_of_neg (by simpa using hd)]
    · rw [show dropLeadOne (c :: t) = c :: t from by simp [dropLeadOne, hc],
        List.dropWhile_cons_of_neg (by simpa using hc)]

theorem dropTrailOne_eq_dropTrail (l : List Char) (h : noTwoUnd l) :
    dropTrailOne l = dropTrail (fun c => decide (c = '_')) l := by
  induction l with
  | nil => rfl
  | cons c t ih =>
    cases t with
    | nil =>
      by_cases hc : c = '_' <;>
        simp [dropTrailOne, dropTrail, hc]
    | cons b t2 =>
      have hstep : dropTrailOne (c :: b :: t2) = c :: dropTrailOne (b :: t2) := rfl
      have htail := ih (noTwoUnd_tail h)
      rw [hstep, htail,
        show dropTrail (fun c => decide (c = '_')) (c :: b :: t2) =
          (match dropTrail (fun c => decide (c = '_')) (b :: t2) with
           | [] => if decide (c = '_') = true then [] else [c]
           | r => c :: r) from rfl]
      cases hdt : dropTrail (fun c => decide (c = '_')) (b :: t2) with
      | nil =>
        have hall := (dropTrail_eq_nil_iff _ _).mp hdt
        have hb : b = '_' := by simpa using hall b (List.mem_cons_self _ _)
        have hc : c ≠ '_' := fun he => h.1 ⟨he, hb⟩
        simp [hc]
      | cons r1 r2 => rfl

theorem snakeCode_eq_snakeSpec (s : String) : snakeCode s = snakeSpec s := by
  unfold snakeCode snakeSpec
  rw [collapseUnd_map (s.data.map Char.toLower).length _ (Nat.le_refl _)]
  have hnt := noTwoUnd_collapseRuns (s.data.map Char.toLower).length
    (s.data.map Char.toLower) (Nat.le_refl _)
  rw [dropLeadOne_eq_dropWhile _ hnt,
    dropTrailOne_eq_dropTrail _ (noTwoUnd_dropWhile _ _ hnt)]

/-- The if-chain of the source equals the ordered rule table of the spec,
evaluated first-match-wins. -/
theorem mockHeaderName_eq_spec (h : String) : mockHeaderName h = specHeaderName h := by
  simp only [mockHeaderName, specHeaderName, ruleTable, firstMatch,
    List.any_cons, List.any_nil, Bool.or_false, Bool.or_assoc]
  split_ifs <;> first
    | rfl
    | exact snakeCode_eq_snakeSpec h

/-! ## Rendering CSV lines and parsing them back -/

theorem charFieldsAux_chunk (s : List Char) :
    ∀ rest fv inQ, (∀ c ∈ s, c ≠ '"' ∧ (inQ = false → c ≠ ',')) →
    charFieldsAux (s ++ rest) fv inQ = charFieldsAux rest (fv ++ s) inQ := by
  induction s with
  | nil =>
    intro rest fv inQ _
    simp
  | cons c s2 ih =>
    intro rest fv inQ hs
    have hc := hs c (List.mem_cons_self _ _)
    rw [List.cons_append,
      show charFieldsAux (c :: (s2 ++ rest)) fv inQ =
        (if c = '"' then charFieldsAux (s2 ++ rest) fv (!inQ)
         else if c = ',' ∧ inQ = false then
           fv :: charFieldsAux (s2 ++ rest) [] inQ
         else charFieldsAux (s2 ++ rest) (fv ++ [c]) inQ) from rfl,
      if_neg hc.1]
    have hnq : ¬ (c = ',' ∧ inQ = false) := fun hq => (hc.2 hq.2) hq.1
    rw [if_neg hnq, ih rest (fv ++ [c]) inQ
      (fun d hd => hs d (List.mem_cons_of_mem _ hd))]
    simp

theorem charFields_joinSep (fields : List CsvField) :
    ∀ f fv, CsvField.wf f → (∀ g ∈ fields, g.wf) →
    charFieldsAux (joinSep ',' ((f :: fields).map CsvField.raw)) fv false =
      (fv ++ f.content.data) :: fields.map (fun g => g.content.data) := by
  induction fields with
  | nil =>
    intro f fv hwf _
    rw [List.map_cons, List.map_nil,
      show joinSep ',' [CsvField.raw f] = CsvField.raw f from rfl]
    cases f with
    | plain s =>
      rw [show CsvField.raw (CsvField.plain s) = s.data from rfl,
        show s.data = s.data ++ [] by simp,
        charFieldsAux_chunk s.data [] fv false
          (fun c hc => ⟨fun he => hwf.2 (he ▸ hc), fun _ he => hwf.1 (he ▸ hc)⟩)]
      simp [charFieldsAux, CsvField.content]
    | quoted s =>
      rw [show CsvField.raw (CsvField.quoted s) = '"' :: (s.data ++ ['"']) from rfl,
        show charFieldsAux ('"' :: (s.data ++ ['"'])) fv false =
          charFieldsAux (s.data ++ ['"']) fv true from rfl,
        charFieldsAux_chunk s.data ['"'] fv true
          (fun c hc => ⟨fun he => hwf (he ▸ hc), fun habs _ => by cases habs⟩)]
      simp [charFieldsAux, CsvField.content]
  | cons g fields2 ih =>
    intro f fv hwf hwf2
    have hjoin : joinSep ',' ((f :: g :: fields2).map CsvField.raw) =
        CsvField.raw f ++ ',' :: joinSep ',' ((g :: fields2).map CsvField.raw) := by
      rw [List.map_cons]
      rfl
    rw [hjoin]
    have hstep : ∀ fv2, charFieldsAux (CsvField.raw f ++
        ',' :: joinSep ',' ((g :: fields2).map CsvField.raw)) fv2 false =
        (fv2 ++ f.content.data) ::
          charFieldsAux (joinSep ',' ((g :: fields2).map CsvField.raw)) [] false := by
      intro fv2
      cases f with
      | plain s =>
        rw [show CsvField.raw (CsvField.plain s) = s.data from rfl,
          charFieldsAux_chunk s.data _ fv2 false
            (fun c hc => ⟨fun he => hwf.2 (he ▸ hc), fun _ he => hwf.1 (he ▸ hc)⟩),
          show charFieldsAux (',' ::
              joinSep ',' ((g :: fields2).map CsvField.raw)) (fv2 ++ s.data) false =
            (fv2 ++ s.data) ::
              charFieldsAux (joinSep ',' ((g :: fields2).map CsvField.raw)) [] false
            from by simp [charFieldsAux]]
        rfl
      | quoted s =>
        rw [show CsvField.raw (CsvField.quoted s) = '"' :: (s.data ++ ['"']) from rfl,
          List.cons_append,
          show charFieldsAux ('"' :: ((s.data ++ ['"']) ++
              ',' :: joinSep ',' ((g :: fields2).map CsvField.raw))) fv2 false =
            charFieldsAux ((s.data ++ ['"']) ++
              ',' :: joinSep ',' ((g :: fields2).map CsvField.raw)) fv2 true from rfl,
          List.append_assoc,
          charFieldsAux_chunk s.data _ fv2 true
            (fun c hc => ⟨fun he => hwf (he ▸ hc), fun habs _ => by cases habs⟩),
          show (['"'] ++ ',' :: joinSep ',' ((g :: fields2).map CsvField.raw)) =
            '"' :: ',' :: joinSep ',' ((g :: fields2).map CsvField.raw) from rfl,
          show charFieldsAux ('"' :: ',' ::
              joinSep ',' ((g :: fields2).map CsvField.raw)) (fv2 ++ s.data) true =
            (fv2 ++ s.data) ::
              charFieldsAux (joinSep ',' ((g :: fields2).map CsvField.raw)) [] false
            from by simp [charFieldsAux]]
        rfl
    rw [hstep fv, ih g [] (hwf2 g (List.mem_cons_self _ _))
      (fun g2 hg2 => hwf2 g2 (List.mem_cons_of_mem _ hg2))]
    simp

theorem splitOnChar_no_sep (sep : Char) (p : List Char) (h : sep ∉ p) :
    splitOnChar sep p = [p] := by
  induction p with
  | nil => rfl
  | cons c t ih =>
    simp only [List.mem_cons, not_or] at h
    have hcs : ¬ c = sep := fun he => h.1 he.symm
    rw [show splitOnChar sep (c :: t) =
      (if c = sep then [] :: splitOnChar sep t
       else match splitOnChar sep t with
            | [] => [[c]]
            | f :: fs => (c :: f) :: fs) from rfl,
      if_neg hcs, ih h.2]

theorem splitOnChar_append_sep (sep : Char) (p rest : List Char) (h : sep ∉ p) :
    splitOnChar sep (p ++ sep :: rest) = p :: splitOnChar sep rest := by
  induction p with
  | nil =>
    rw [List.nil_append,
      show splitOnChar sep (sep :: rest) =
        (if sep = sep then [] :: splitOnChar sep rest
         else match splitOnChar sep rest with
              | [] => [[sep]]
              | f :: fs => (sep :: f) :: fs) from rfl,
      if_pos rfl]
  | cons c t ih =>
    simp only [List.mem_cons, not_or] at h
    have hcs : ¬ c = sep := fun he => h.1 he.symm
    rw [List.cons_append,
      show splitOnChar sep (c :: (t ++ sep :: rest)) =
        (if c = sep then [] :: splitOnChar sep (t ++ sep :: rest)
         else match splitOnChar sep (t ++ sep :: rest) with
              | [] => [[c]]
              | f :: fs => (c :: f) :: fs) from rfl,
      if_neg hcs, ih h.2]

theorem splitOnChar_joinSep (sep : Char) (pieces : List (List Char))
    (hne : pieces ≠ []) (h : ∀ p ∈ pieces, sep ∉ p) :
    splitOnChar sep (joinSep sep pieces) = pieces := by
  induction pieces with
  | nil => exact absurd rfl hne
  | cons p rest ih =>
    cases rest with
    | nil =>
      rw [show joinSep sep [p] = p from rfl,
        splitOnChar_no_sep sep p (h p (List.mem_cons_self _ _))]
    | cons q rest2 =>
      rw [show joinSep sep (p :: q :: rest2) =
          p ++ sep :: joinSep sep (q :: rest2) from rfl,
        splitOnChar_append_sep sep p _ (h p (List.mem_cons_self _ _)),
        ih (by simp) (fun r hr => h r (List.mem_cons_of_mem _ hr))]

theorem mem_joinSep (sep : Char) (pieces : List (List Char)) (c : Char)
    (hc : c ∈ joinSep sep pieces) : c = sep ∨ ∃ p ∈ pieces, c ∈ p := by
  induction pieces with
  | nil => simp [joinSep] at hc
  | cons p rest ih =>
    cases rest with
    | nil =>
      rw [show joinSep sep [p] = p from rfl] at hc
      exact Or.inr ⟨p, List.mem_cons_self _ _, hc⟩
    | cons q rest2 =>
      rw [show joinSep sep (p :: q :: rest2) =
        p ++ sep :: joinSep sep (q :: rest2) from rfl] at hc
      rcases List.mem_append.mp hc with hc | hc
      · exact Or.inr ⟨p, List.mem_cons_self _ _, hc⟩
      · rcases List.mem_cons.mp hc with hc | hc
        · exact Or.inl hc
        · rcases ih hc with hc | ⟨r, hr, hcr⟩
          · exact Or.inl hc
          · exact Or.inr ⟨r, List.mem_cons_of_mem _ hr, hcr⟩

theorem stripCRs_id (pieces : List (List Char))
    (h : ∀ p ∈ pieces, p.getLast? ≠ some '\r') : stripCRs pieces = pieces := by
  induction pieces with
  | nil => rfl
  | cons p rest ih =>
    cases rest with
    | nil => rfl
    | cons q rest2 =>
      have hp := h p (List.mem_cons_self _ _)
      have hstep : stripCRs (p :: q :: rest2) =
          (match p.getLast? with
           | some c => if c = '\r' then p.dropLast else p
           | none => p) :: stripCRs (q :: rest2) := rfl
      rw [hstep, ih (fun r hr => h r (List.mem_cons_of_mem _ hr))]
      cases hl : p.getLast? with
      | none => rfl
      | some c =>
        have hcr : ¬ c = '\r' := fun he => hp (he ▸ hl)
        simp [hcr]

theorem parseRow_render (headers : List String) (fields : List CsvField)
    (hnd : headers.Nodup) (hlen : fields.length = headers.length)
    (hwf : ∀ g ∈ fields, g.wf) :
    ∀ i, i < headers.length →
    getKey (parseRow headers (joinSep ',' (fields.map CsvField.raw)))
        (headers.getD i "") =
      some (trimStr ((fields.getD i (CsvField.plain "")).content)) := by
  intro i hi
  cases fields with
  | nil =>
    rw [← hlen] at hi
    simp at hi
  | cons f fs =>
    have hcf : charFields (joinSep ',' ((f :: fs).map CsvField.raw)) =
        (f :: fs).map (fun g => g.content.data) := by
      unfold charFields
      rw [charFields_joinSep fs f [] (hwf f (List.mem_cons_self _ _))
        (fun g hg => hwf g (List.mem_cons_of_mem _ hg))]
      simp
    have hlen2 : (charFields (joinSep ',' ((f :: fs).map CsvField.raw))).length =
        headers.length := by
      rw [hcf, List.length_map, hlen]
    have hspec := (parseRow_spec headers
      (joinSep ',' ((f :: fs).map CsvField.raw)) hnd).2 i hi
    rw [if_neg (by rw [hlen2]; omega)] at hspec
    rw [hspec, hcf]
    have hif : i < (f :: fs).length := by rw [hlen]; exact hi
    have hgd : ((f :: fs).map (fun g => g.content.data)).getD i [] =
        ((f :: fs).getD i (CsvField.plain "")).content.data := by
      rw [List.getD_eq_getElem?_getD, List.getD_eq_getElem?_getD, List.getElem?_map,
        List.getElem?_eq_getElem hif]
      rfl
    rw [hgd]
    rfl

/-- `parseCSV` as header extraction plus a map over the data lines. -/
theorem parseCSV_eq (text : String) :
    parseCSV text =
      match (stripCRs (splitOnChar '\n' text.data)).filter
          (fun l => !(trimWS l).isEmpty) with
      | [] => []
      | _ :: dataLines => dataLines.map (parseRow (csvHeaders text)) := by
  unfold parseCSV csvHeaders
  cases hlines : (stripCRs (splitOnChar '\n' text.data)).filter
      (fun l => !(trimWS l).isEmpty) with
  | nil => rfl
  | cons headerLine dataLines => rfl

/-- Round trip: a well-formed CSV rendered from trim-stable,
delimiter-free cells parses back to exactly its data rows (values read in
header order). -/
theorem parseCSV_renderCsv (headerCells : List String) (rows : List (List String))
    (hnd : headerCells.Nodup)
    (hok : ∀ c ∈ headerCells, cellOK c)
    (hrows : ∀ r ∈ rows, r.length = headerCells.length ∧ ∀ c ∈ r, cellOK c)
    (hnb : ∀ r ∈ headerCells :: rows, trimWS (renderLine r) ≠ []) :
    (parseCSV (renderCsv headerCells rows)).map
      (fun row => headerCells.map (fun h => (getKey row h).getD "")) = rows := by
  have hcells : ∀ r ∈ headerCells :: rows, ∀ c ∈ r, cellOK c := by
    intro r hr
    rcases List.mem_cons.mp hr with hr | hr
    · subst hr; exact hok
    · exact (hrows r hr).2
  have hdata : (renderCsv headerCells rows).data =
      joinSep '\n' ((headerCells :: rows).map renderLine) := rfl
  have hmemline : ∀ r ∈ headerCells :: rows, ∀ c2 ∈ renderLine r,
      c2 = ',' ∨ ∃ cell ∈ r, c2 ∈ cell.data := by
    intro r hr c2 hc2
    rcases mem_joinSep ',' _ c2 hc2 with hc2 | ⟨p, hp, hcp⟩
    · exact Or.inl hc2
    · rcases List.mem_map.mp hp with ⟨cell, hcell, hpc⟩
      exact Or.inr ⟨cell, hcell, hpc ▸ hcp⟩
  have hnolf : ∀ p ∈ (headerCells :: rows).map renderLine, '\n' ∉ p := by
    intro p hp hmem
    rcases List.mem_map.mp hp with ⟨r, hr, hpr⟩
    rcases hmemline r hr '\n' (hpr ▸ hmem) with hc | ⟨cell, hcell, hcc⟩
    · exact absurd hc (by decide)
    · exact (hcells r hr cell hcell).2.2.2.1 hcc
  have hsplit : splitOnChar '\n' (joinSep '\n' ((headerCells :: rows).map renderLine)) =
      (headerCells :: rows).map renderLine :=
    splitOnChar_joinSep '\n' _ (by simp) hnolf
  have hstrip : stripCRs ((headerCells :: rows).map renderLine) =
      (headerCells :: rows).map renderLine := by
    apply stripCRs_id
    intro p hp habs
    rcases List.mem_map.mp hp with ⟨r, hr, hpr⟩
    have hmem : '\r' ∈ p := List.mem_of_getLast?_eq_some habs
    rcases hmemline r hr '\r' (hpr ▸ hmem) with hc | ⟨cell, hcell, hcc⟩
    · exact absurd hc (by decide)
    · exact (hcells r hr cell hcell).2.2.2.2 hcc
  have hfilter : ((headerCells :: rows).map renderLine).filter
      (fun l => !(trimWS l).isEmpty) = (headerCells :: rows).map renderLine := by
    rw [List.filter_eq_self]
    intro l hl
    rcases List.mem_map.mp hl with ⟨r, hr, hlr⟩
    have hne := hnb r hr
    rw [← hlr]
    simpa using hne
  have hlines : (stripCRs (splitOnChar '\n'
      (renderCsv headerCells rows).data)).filter (fun l => !(trimWS l).isEmpty) =
      renderLine headerCells :: rows.map renderLine := by
    rw [hdata, hsplit, hstrip, hfilter, List.map_cons]
  have hheadne : headerCells ≠ [] := by
    intro he
    apply hnb headerCells (List.mem_cons_self _ _)
    subst he
    rfl
  have hsplith : splitOnChar ',' (renderLine headerCells) =
      headerCells.map String.data := by
    apply splitOnChar_joinSep
    · simpa using hheadne
    · intro p hp hc
      rcases List.mem_map.mp hp with ⟨cell, hcell, hpc⟩
      exact (hok cell hcell).2.1 (hpc ▸ hc)
  have hheaders : (splitOnChar ',' (renderLine headerCells)).map
      (fun c => String.mk (trimWS c)) = headerCells := by
    rw [hsplith, List.map_map]
    have hcg : ∀ c ∈ headerCells,
        ((fun c => String.mk (trimWS c)) ∘ String.data) c = c := by
      intro c hc
      exact (hok c hc).1
    rw [List.map_congr_left hcg]
    exact List.map_id headerCells
  have hpcsv : parseCSV (renderCsv headerCells rows) =
      (rows.map renderLine).map (parseRow headerCells) := by
    unfold parseCSV
    rw [hlines]
    show (rows.map renderLine).map (parseRow ((splitOnChar ','
      (renderLine headerCells)).map (fun c => String.mk (trimWS c)))) = _
    rw [hheaders]
  have hrow : ∀ r ∈ rows,
      headerCells.map (fun h => (getKey (parseRow headerCells (renderLine r)) h).getD "") =
        r := by
    intro r hr
    have hrlen := (hrows r hr).1
    have hrok := (hrows r hr).2
    have hline : renderLine r = joinSep ',' ((r.map CsvField.plain).map CsvField.raw) := by
      unfold renderLine
      rw [List.map_map]
      rfl
    apply List.ext_getElem
    · rw [List.length_map, hrlen]
    · intro i hi1 hi2
      rw [List.getElem_map]
      have hgd : headerCells[i] = headerCells.getD i "" := by
        rw [List.getD_eq_getElem?_getD,
          List.getElem?_eq_getElem (by simpa using hi1)]
        rfl
      rw [hgd, hline]
      rw [parseRow_render headerCells (r.map CsvField.plain) hnd
        (by rw [List.length_map, hrlen]) ?_ i (by simpa using hi1)]
      · have hri : i < r.length := by rw [hrlen]; simpa using hi1
        have hc1 : ((r.map CsvField.plain).getD i (CsvField.plain "")).content =
            r.getD i "" := by
          simp [List.getD_eq_getElem?_getD, List.getElem?_map,
            List.getElem?_eq_getElem hri]
          rfl
        rw [hc1]
        have hmem : r.getD i "" = r[i] := by
          rw [List.getD_eq_getElem?_getD, List.getElem?_eq_getElem hri]
          rfl
        rw [hmem]
        have htr : trimStr r[i] = r[i] := (hrok _ (List.getElem_mem hri)).1
        rw [htr]
        rfl
      · intro g hg
        rcases List.mem_map.mp hg with ⟨cell, hcell, hgc⟩
        rw [← hgc]
        exact ⟨(hrok cell hcell).2.1, (hrok cell hcell).2.2.1⟩
  rw [hpcsv, List.map_map, List.map_map]
  have hfinal : ∀ r ∈ rows, (((fun row => headerCells.map
      (fun h => (getKey row h).getD "")) ∘ parseRow headerCells) ∘ renderLine) r = r := by
    intro r hr
    exact hrow r hr
  rw [List.map_congr_left hfinal]
  exact List.map_id rows

/-! ## Claim theorems -/

/-- C1 counterexample: the Row Standardizer does not insert a key named
`code`; on a one-entry row with an empty mapping the produced
StandardizedRow is `[("a", "1"), ("cpt_code", "")]`, which has no `code`
key. -/
theorem c1_counterexample :
    standardizeData [[("a", "1")]] (JsonVal.obj []) =
      [[("a", "1"), ("cpt_code", "")]] ∧
    hasKey ((standardizeData [[("a", "1")]] (JsonVal.obj [])).headD []) "code" =
      false := by
  decide

/-- C1 (amended): every StandardizedRow produced by the Row Standardizer
contains the canonical key `cpt_code` (not `code`), inserted with the
empty string as its value whenever no source entry of the row resolves to
that key. -/
theorem c1_cpt_code_key (mapping : JsonVal) (data : List Row) :
    (∀ row ∈ standardizeData data mapping, hasKey row "cpt_code" = true) ∧
    (∀ srcRow ∈ data, lastVal (resolveCol mapping) "cpt_code" srcRow = none →
      getKey (standardizeRow mapping srcRow) "cpt_code" = some "") := by
  constructor
  · intro row hrow
    simp only [standardizeData, List.mem_map] at hrow
    obtain ⟨src, _, hsrc⟩ := hrow
    subst hsrc
    unfold hasKey
    rw [standardizeRow_getKey]
    cases hl : lastVal (resolveCol mapping) "cpt_code" (jsEntries src) with
    | some v => rfl
    | none => rfl
  · intro srcRow _ hnone
    rw [standardizeRow_getKey]
    have hnone2 : lastVal (resolveCol mapping) "cpt_code" (jsEntries srcRow) = none := by
      rw [lastVal_eq_none_iff]
      intro kv hkv
      exact (lastVal_eq_none_iff _ _ srcRow).mp hnone kv (mem_jsEntries srcRow kv hkv)
    rw [hnone2]
    simp

/-- C1 witness: the amended theorem applied at a concrete row. -/
theorem c1_witness :
    hasKey [(("b" : String), ("2" : String)), ("cpt_code", "")] "cpt_code" = true ∧
    getKey (standardizeRow (JsonVal.obj []) [("b", "2")]) "cpt_code" = some "" := by
  constructor
  · exact (c1_cpt_code_key (JsonVal.obj []) [[("b", "2")]]).1
      [(("b" : String), ("2" : String)), ("cpt_code", "")] (by decide)
  · exact (c1_cpt_code_key (JsonVal.obj []) [[("b", "2")]]).2
      [("b", "2")] (by decide) (by decide)

/-- C2: the Heuristic Mapper classifies every header exactly as the
spec's ordered rule table (case-insensitive substring matching,
first-match-wins, snake-case rewrite in the default rule) prescribes;
in particular a header containing both "surg" and "date" (after
lowercasing) resolves to `procedure_date` by rule priority. -/
theorem c2_heuristic_rules :
    (∀ h : String, mockHeaderName h = specHeaderName h) ∧
    (∀ h : String,
      containsList "surg".data (h.data.map Char.toLower) = true →
      containsList "date".data (h.data.map Char.toLower) = true →
      mockHeaderName h = "procedure_date") := by
  constructor
  · exact mockHeaderName_eq_spec
  · intro h _ hdate
    have hcond : (containsList "date".data (h.data.map Char.toLower) ||
        containsList "dt".data (h.data.map Char.toLower)) = true := by
      rw [hdate, Bool.true_or]
    unfold mockHeaderName
    rw [if_pos hcond]

/-- C2 witness: the rule-priority fact applied at the header
"Surgery Date". -/
theorem c2_witness :
    mockHeaderName "Surgery Date" = specHeaderName "Surgery Date" ∧
    mockHeaderName "Surgery Date" = "procedure_date" :=
  ⟨c2_heuristic_rules.1 "Surgery Date",
    c2_heuristic_rules.2 "Surgery Date" (by decide) (by decide)⟩

/-- C3: with no API key configured, or with the external call failing in
any way (transport error, non-ok status, unusable reply content), the
Mapping Resolver returns exactly the Heuristic Mapper's mapping for the
whole header set. -/
theorem c3_fallback_invariant (apiKey : Option String) (fetch : FetchOutcome)
    (originalHeaders : List String)
    (hfail : apiKey = none ∨ fetch = FetchOutcome.netError ∨
      (∃ r, fetch = FetchOutcome.response r ∧
        (r.ok = false ∨ r.parsedContent = none))) :
    generateColumnMapping apiKey fetch originalHeaders =
      JsonVal.obj (mockColumnMapping originalHeaders) := by
  rcases hfail with hk | hf | ⟨r, hr, hrf⟩
  · subst hk
    rfl
  · subst hf
    cases apiKey with
    | none => rfl
    | some k =>
      by_cases hk : k = ""
      · simp [generateColumnMapping, hk]
      · simp [generateColumnMapping, hk, attemptReasoning]
  · subst hr
    cases apiKey with
    | none => rfl
    | some k =>
      by_cases hk : k = ""
      · simp [generateColumnMapping, hk]
      · rcases hrf with hok | hpc
        · simp [generateColumnMapping, hk, attemptReasoning, hok]
        · by_cases hok : r.ok = false
          · simp [generateColumnMapping, hk, attemptReasoning, hok]
          · simp [generateColumnMapping, hk, attemptReasoning, hok, hpc]

/-- C3 witness: the fallback invariant applied with no key configured. -/
theorem c3_witness :
    generateColumnMapping none FetchOutcome.netError ["Surgery Date"] =
      JsonVal.obj (mockColumnMapping ["Surgery Date"]) :=
  c3_fallback_invariant none FetchOutcome.netError ["Surgery Date"] (Or.inl rfl)

/-- C4 counterexample: a short row (two quote-aware fields under three
headers) triggers the naive fallback, which splits a quoted field
containing a comma and keeps the quote characters: the field `"x,y"` is
not recovered as the single field `x,y`. -/
theorem c4_counterexample :
    parseCSV "a,b,c\n\"x,y\",z" =
      [[("a", "\"x"), ("b", "y\""), ("c", "z")]] ∧
    getKey ((parseCSV "a,b,c\n\"x,y\",z").headD []) "a" ≠ some "x,y" := by
  decide

/-- C4 (amended): on a line built from one well-formed field per header
(distinct headers), so that the quote-aware parse yields a full field
count and the naive fallback is not triggered, every field — in
particular a quoted field containing literal commas — is recovered as a
single field equal to the whitespace-trimmed unquoted text, quotes
stripped. -/
theorem c4_quoted_field (headers : List String) (fields : List CsvField)
    (hnd : headers.Nodup) (hlen : fields.length = headers.length)
    (hwf : ∀ g ∈ fields, g.wf) (i : Nat) (hi : i < headers.length) :
    getKey (parseRow headers (joinSep ',' (fields.map CsvField.raw)))
        (headers.getD i "") =
      some (trimStr ((fields.getD i (CsvField.plain "")).content)) :=
  parseRow_render headers fields hnd hlen hwf i hi

/-- C4 witness: the quoted field `"x, y"` next to a plain field is
recovered whole, with quotes stripped. -/
theorem c4_witness :
    getKey (parseRow ["a", "b"] (joinSep ','
        ([CsvField.quoted "x, y", CsvField.plain "z"].map CsvField.raw)))
      "a" = some "x, y" := by
  have h := c4_quoted_field ["a", "b"]
    [CsvField.quoted "x, y", CsvField.plain "z"] (by decide) (by decide)
    (by
      intro g hg
      rcases List.mem_cons.mp hg with hg | hg
      · subst hg
        exact (by decide : '"' ∉ ("x, y" : String).data)
      · rcases List.mem_cons.mp hg with hg | hg
        · subst hg
          exact ⟨(by decide : ',' ∉ ("z" : String).data),
            (by decide : '"' ∉ ("z" : String).data)⟩
        · simp at hg)
    0 (by decide)
  have e1 : (["a", "b"].getD 0 "") = "a" := rfl
  have e2 : trimStr (([CsvField.quoted "x, y",
      CsvField.plain "z"].getD 0 (CsvField.plain "")).content) = "x, y" := by
    decide
  rw [e1, e2] at h
  exact h

/-- C5 counterexample: with the duplicated header name `a` the two-field
row collapses to a single object entry, so the emitted row is not
reconciled to the header count (2); the first value is lost. -/
theorem c5_counterexample :
    parseCSV "a,a\n1,2" = [[("a", "2")]] ∧
    (csvHeaders "a,a\n1,2").length = 2 ∧
    ((parseCSV "a,a\n1,2").headD []).length ≠ 2 := by
  decide

/-- C5 (amended): parsing is total, and for every text whose (trimmed)
header names are distinct, every emitted row carries exactly the headers
as keys, enumerated in ECMAScript property order (array-index-like
header names first in ascending numeric order, then the remaining
headers in header order) — short rows padded, long rows truncated — and
any header index at or beyond the row's naive field count maps to the
empty string. -/
theorem c5_reconciled (text : String) (hnd : (csvHeaders text).Nodup) :
    (∀ row ∈ parseCSV text, keys row = enumOrder (csvHeaders text)) ∧
    (∀ line : List Char, ∀ i, i < (csvHeaders text).length →
      (splitOnChar ',' line).length ≤ i →
      getKey (parseRow (csvHeaders text) line) ((csvHeaders text).getD i "") =
        some "") := by
  constructor
  · intro row hrow
    rw [parseCSV_eq] at hrow
    cases hlines : (stripCRs (splitOnChar '\n' text.data)).filter
        (fun l => !(trimWS l).isEmpty) with
    | nil =>
      rw [hlines] at hrow
      simp at hrow
    | cons headerLine dataLines =>
      rw [hlines] at hrow
      simp only [List.mem_map] at hrow
      obtain ⟨line, _, hline⟩ := hrow
      subst hline
      show enumOrder (insKeys (parseRow (csvHeaders text) line)) =
        enumOrder (csvHeaders text)
      rw [(parseRow_spec (csvHeaders text) line hnd).1]
  · intro line i hi hcount
    have h := (parseRow_spec (csvHeaders text) line hnd).2 i hi
    by_cases hfb : (charFields line).length < (csvHeaders text).length
    · rw [if_pos hfb] at h
      rw [h]
      unfold padVal
      rw [if_neg (by omega)]
    · exfalso
      have hle := charFieldsAux_length_le line [] false
      have hcfeq : charFields line = charFieldsAux line [] false := rfl
      rw [← hcfeq] at hle
      omega

/-- C5 witness: the reconciliation facts applied to a concrete file with
one short and one long row. -/
theorem c5_witness :
    keys ((parseCSV "a,b,c\n1,2\n1,2,3,4").headD []) =
      enumOrder (csvHeaders "a,b,c\n1,2\n1,2,3,4") ∧
    getKey (parseRow (csvHeaders "a,b,c\n1,2") ("1,2".data))
      ((csvHeaders "a,b,c\n1,2").getD 2 "") = some "" := by
  constructor
  · exact (c5_reconciled "a,b,c\n1,2\n1,2,3,4" (by decide)).1 _ (by decide)
  · exact (c5_reconciled "a,b,c\n1,2" (by decide)).2 ("1,2".data) 2
      (by decide) (by decide)

/-- C7 counterexample: the field value ` a` contains no delimiter and no
quote, yet tokenizing trims it to `a`, so re-serializing in header order
does not reproduce the original value. -/
theorem c7_counterexample :
    parseCSV "h\n a" = [[("h", "a")]] ∧
    getKey ((parseCSV "h\n a").headD []) "h" ≠ some " a" := by
  decide

/-- C7 (amended): for CSV text rendered from distinct headers and rows of
matching width whose cells contain no comma, quote, newline or carriage
return and no leading/trailing whitespace, with every rendered line
non-blank, tokenizing and then reading the values back in header order
reproduces the original field values exactly. -/
theorem c7_round_trip (headerCells : List String) (rows : List (List String))
    (hnd : headerCells.Nodup)
    (hok : ∀ c ∈ headerCells, cellOK c)
    (hrows : ∀ r ∈ rows, r.length = headerCells.length ∧ ∀ c ∈ r, cellOK c)
    (hnb : ∀ r ∈ headerCells :: rows, trimWS (renderLine r) ≠ []) :
    (parseCSV (renderCsv headerCells rows)).map
      (fun row => headerCells.map (fun h => (getKey row h).getD "")) = rows :=
  parseCSV_renderCsv headerCells rows hnd hok hrows hnb

/-- C7 witness: the round trip applied to a two-row file. -/
theorem c7_witness :
    (parseCSV (renderCsv ["h", "k"] [["x", "y"], ["u", "v"]])).map
      (fun row => ["h", "k"].map (fun h2 => (getKey row h2).getD "")) =
      [["x", "y"], ["u", "v"]] := by
  have hcell : ∀ s : String, s ∈ (["h", "k", "x", "y", "u", "v"] : List String) →
      cellOK s := by
    intro s hs
    fin_cases hs <;>
      exact ⟨by decide, by decide, by decide, by decide, by decide⟩
  exact c7_round_trip ["h", "k"] [["x", "y"], ["u", "v"]]
    (by decide)
    (fun c hc => hcell c (by fin_cases hc <;> decide))
    (by
      intro r hr
      rcases List.mem_cons.mp hr with hr | hr
      · subst hr
        exact ⟨rfl, fun c hc => hcell c (by fin_cases hc <;> decide)⟩
      · rcases List.mem_cons.mp hr with hr | hr
        · subst hr
          exact ⟨rfl, fun c hc => hcell c (by fin_cases hc <;> decide)⟩
        · simp at hr)
    (by
      intro r hr
      fin_cases hr <;> decide)

/-- C6 counterexample: a reply that parses as a JSON object whose keys
are not the submitted headers is returned verbatim, not treated as a
mapper failure: no heuristic fallback happens. -/
theorem c6_counterexample :
    generateColumnMapping (some "key")
        (FetchOutcome.response ⟨true, some (JsonVal.obj [("x", "y")])⟩) ["pt"] =
      JsonVal.obj [("x", "y")] ∧
    [("x", "y")].map Prod.fst ≠ ["pt"] ∧
    JsonVal.obj [("x", "y")] ≠ JsonVal.obj (mockColumnMapping ["pt"]) := by
  decide

/-- C6 (amended): with a non-empty key, any reply whose content parses as
JSON is accepted and returned verbatim — regardless of its key set or of
being an object at all; only transport errors, non-ok status and
non-parseable content make the reasoning attempt fail, and then the
heuristic mapping is used for every header. -/
theorem c6_parsed_reply_accepted (k : String) (headers : List String)
    (hk : ¬ k = "") :
    (∀ r : HttpResponse, ∀ v : JsonVal, r.ok = true → r.parsedContent = some v →
      generateColumnMapping (some k) (FetchOutcome.response r) headers = v) ∧
    (∀ fetch : FetchOutcome, (∀ v, attemptReasoning fetch ≠ Except.ok v) →
      generateColumnMapping (some k) fetch headers =
        JsonVal.obj (mockColumnMapping headers)) := by
  constructor
  · intro r v hok hpc
    simp [generateColumnMapping, hk, attemptReasoning, hok, hpc]
  · intro fetch hfe
    cases hat : attemptReasoning fetch with
    | ok v => exact absurd hat (hfe v)
    | error e => simp [generateColumnMapping, hk, hat]

/-- C6 witness: a parsed non-object reply is returned verbatim. -/
theorem c6_witness :
    generateColumnMapping (some "key")
      (FetchOutcome.response ⟨true, some JsonVal.nonObj⟩) ["pt"] =
      JsonVal.nonObj :=
  (c6_parsed_reply_accepted "key" ["pt"] (by decide)).1
    ⟨true, some JsonVal.nonObj⟩ JsonVal.nonObj rfl rfl

/-- C8: every successful standardize-mode result reports the full parsed
row count as `total_rows` while both previews are truncated to at most
100 rows. -/
theorem c8_preview_bound (isCsv : Bool) (apiKey : Option String)
    (fetch : FetchOutcome) (content : String) (st : Standardization)
    (h : handleStandardizeMode isCsv apiKey fetch content = some st) :
    st.total_rows = (parseCSV content).length ∧
    st.standardized_data.length ≤ 100 ∧
    st.original_data.length ≤ 100 := by
  simp only [handleStandardizeMode] at h
  by_cases hc : isCsv = false
  · rw [if_pos hc] at h
    cases h
  · rw [if_neg hc] at h
    by_cases hz : (parseCSV content).length = 0
    · rw [if_pos hz] at h
      cases h
    · rw [if_neg hz] at h
      injection h with h2
      subst h2
      refine ⟨rfl, ?_, ?_⟩
      · show ((standardizeData (parseCSV content) _).take 100).length ≤ 100
        rw [List.length_take]
        exact Nat.min_le_left _ _
      · show ((parseCSV content).take 100).length ≤ 100
        rw [List.length_take]
        exact Nat.min_le_left _ _

/-- The 150-row file used in the C8 witness: one `pt` header line and 150
one-field data rows. -/
def csv150 : String := "pt\nx\nx\nx\nx\nx\nx\nx\nx\nx\nx\nx\nx\nx\nx\nx\nx\nx\nx\nx\nx\nx\nx\nx\nx\nx\nx\nx\nx\nx\nx\nx\nx\nx\nx\nx\nx\nx\nx\nx\nx\nx\nx\nx\nx\nx\nx\nx\nx\nx\nx\nx\nx\nx\nx\nx\nx\nx\nx\nx\nx\nx\nx\nx\nx\nx\nx\nx\nx\nx\nx\nx\nx\nx\nx\nx\nx\nx\nx\nx\nx\nx\nx\nx\nx\nx\nx\nx\nx\nx\nx\nx\nx\nx\nx\nx\nx\nx\nx\nx\nx\nx\nx\nx\nx\nx\nx\nx\nx\nx\nx\nx\nx\nx\nx\nx\nx\nx\nx\nx\nx\nx\nx\nx\nx\nx\nx\nx\nx\nx\nx\nx\nx\nx\nx\nx\nx\nx\nx\nx\nx\nx\nx\nx\nx\nx\nx\nx\nx\nx\nx"

set_option maxRecDepth 100000 in
/-- C8 witness: on the 150-row file the result reports 150 total rows and
both previews are cut to 100. -/
theorem c8_witness :
    (handleStandardizeMode true none FetchOutcome.netError csv150).map
      (fun st => (st.total_rows, decide (st.standardized_data.length ≤ 100),
        decide (st.original_data.length ≤ 100))) = some (150, true, true) := by
  cases hh : handleStandardizeMode true none FetchOutcome.netError csv150 with
  | none => exact absurd hh (by decide)
  | some st =>
    have h := c8_preview_bound true none FetchOutcome.netError csv150 st hh
    have hlen : (parseCSV csv150).length = 150 := by decide
    rw [hlen] at h
    show some (st.total_rows, decide (st.standardized_data.length ≤ 100),
      decide (st.original_data.length ≤ 100)) = some (150, true, true)
    rw [h.1, decide_eq_true h.2.1, decide_eq_true h.2.2]

/-- C9 counterexample: with the array-index-like header `123` next to the
header `123!` (both resolving to the canonical key `proc`),
`Object.entries` enumerates `123` first, so the EARLIER header (by header
order, `123!` at position 0) wins: the stored value is `x`, not the later
header's `y`. -/
theorem c9_counterexample :
    parseCSV "123!,123\nx,y" = [[("123!", "x"), ("123", "y")]] ∧
    jsEntries [("123!", "x"), ("123", "y")] = [("123", "y"), ("123!", "x")] ∧
    getKey (standardizeRow (JsonVal.obj [("123!", "proc"), ("123", "proc")])
      [("123!", "x"), ("123", "y")]) "proc" = some "x" ∧
    (some "x" : Option String) ≠ some "y" := by
  decide

/-- C9 (amended): the Row Standardizer is a per-row map (so output
preserves input row order), and within a row the value stored under any
canonical key is the value of the last entry in the row's ECMAScript
enumeration order (array-index-like original headers first in ascending
numeric order, then the remaining headers in header order) that resolves
to that key — earlier entries in that order are silently overwritten,
and `cpt_code` defaults to the empty string; when no header is
array-index-like, enumeration order is header order, so there the later
header (by header order) wins as the original claim stated. -/
theorem c9_lossy_merge (mapping : JsonVal) (data : List Row) :
    standardizeData data mapping = data.map (standardizeRow mapping) ∧
    (∀ row : Row, ∀ k : String,
      getKey (standardizeRow mapping row) k =
        match lastVal (resolveCol mapping) k (jsEntries row) with
        | some v => some v
        | none => if k = "cpt_code" then some "" else none) ∧
    (∀ row : Row, (insKeys row).Nodup →
      (∀ kv ∈ row, isArrayIndex kv.1 = false) → jsEntries row = row) :=
  ⟨rfl, fun row k => standardizeRow_getKey mapping row k,
    fun row hnd hni => jsEntries_eq_self row hnd hni⟩

/-- C9 witness: on a row with no array-index-like headers the enumeration
order is the header order, and the later of two headers colliding on the
same canonical key wins. -/
theorem c9_witness :
    jsEntries [(("a" : String), ("1" : String)), ("b", "2")] =
      [(("a" : String), ("1" : String)), ("b", "2")] ∧
    getKey (standardizeRow (JsonVal.obj [("a", "proc"), ("b", "proc")])
      [("a", "1"), ("b", "2")]) "proc" = some "2" := by
  constructor
  · exact (c9_lossy_merge (JsonVal.obj []) []).2.2
      [(("a" : String), ("1" : String)), ("b", "2")] (by decide) (by decide)
  · rw [(c9_lossy_merge (JsonVal.obj [("a", "proc"), ("b", "proc")]) []).2.1
      [("a", "1"), ("b", "2")] "proc"]
    decide

/-- C10: every key and every value the Tokenizer emits is unchanged by a
further trim (leading and trailing whitespace removed), in both the
quote-aware and the naive fallback paths; and a quoted field with
surrounding and interior whitespace keeps exactly its interior
whitespace. -/
theorem c10_trimmed :
    (∀ text : String, ∀ row ∈ parseCSV text, ∀ kv ∈ row,
      trimStr kv.1 = kv.1 ∧ trimStr kv.2 = kv.2) ∧
    parseCSV "h\n\" a  b \"" = [[("h", "a  b")]] :=
  ⟨fun text row hrow kv hkv => parseCSV_trimmed text row hrow kv hkv, by decide⟩

/-- C10 witness: the trimming fact applied to the row parsed from a
quoted, whitespace-padded field. -/
theorem c10_witness :
    trimStr "h" = "h" ∧ trimStr "a  b" = "a  b" :=
  c10_trimmed.1 "h\n\" a  b \"" [("h", "a  b")] (by decide) ("h", "a  b")
    (by decide)

end SCS
